import Mathlib

/-
Verification of the transcript-summarization pipeline
(summarize_enhanced.py and summarize_resume.py).

Strings are modelled as List Char.  Python str.strip() is modelled by
pyStrip with the ASCII whitespace characters Python recognises.
The chunking loop of chunk_text can fail to terminate (the window
advance may be non-positive), so the loop is modelled with explicit
fuel; chunk_textD runs it with enough fuel for every terminating
configuration (overlap < length).
-/

abbrev Str := List Char

/-- Python str.isspace on the ASCII whitespace characters: space, tab,
newline, carriage return, vertical tab, form feed. -/
def pyIsSpace (c : Char) : Bool :=
  c = ' ' || c = '\t' || c = '\n' || c = '\r' || c = '\x0b' || c = '\x0c'

/-- Python str.strip(): remove leading and trailing whitespace. -/
def pyStrip (s : Str) : Str :=
  ((s.dropWhile pyIsSpace).reverse.dropWhile pyIsSpace).reverse

/-- Python slicing text[a:b] for 0 <= a <= b (clamped at the end). -/
def pySlice (t : Str) (a b : Nat) : Str :=
  (t.drop a).take (b - a)

/-- Module-level constant CHUNK_CHAR_LENGTH = 15000 (both scripts). -/
def CHUNK_CHAR_LENGTH : Nat := 15000

/-- Module-level constant CHUNK_CHAR_OVERLAP = 800 (both scripts). -/
def CHUNK_CHAR_OVERLAP : Nat := 800

/-- The while-loop body of chunk_text, with explicit fuel.  Mirrors

    while start < n:
        end = min(start + length, n)
        chunk = text[start:end].strip()
        if chunk: chunks.append(chunk)
        if end == n: break
        start = max(0, end - overlap)

t is the already-stripped text; start = max(0, end - overlap) is Nat
truncated subtraction (identical to the Python max with 0).  Returns
none when the fuel runs out, i.e. when the source loop has not
terminated within fuel iterations. -/
def chunkLoop (t : Str) (len ov : Nat) : Nat → Nat → List Str → Option (List Str)
  | 0, _, _ => none
  | fuel + 1, start, acc =>
    if start < t.length then
      let e := min (start + len) t.length
      let c := pyStrip (pySlice t start e)
      let acc' := if c = [] then acc else acc ++ [c]
      if e = t.length then some acc'
      else chunkLoop t len ov fuel (e - ov) acc'
    else some acc

/-- chunk_text(text, length, overlap) of both scripts, with fuel for the
loop.  text = text.strip(); if not text: return []. -/
def chunk_text (fuel : Nat) (text : Str) (len ov : Nat) : Option (List Str) :=
  let t := pyStrip text
  if t = [] then some [] else chunkLoop t len ov fuel 0 []

/-- The sequence of (start, end) windows the chunk_text loop visits;
depends only on the length n of the stripped text.  Same fuel
discipline as chunkLoop. -/
def chunkWindows (len ov n : Nat) : Nat → Nat → Option (List (Nat × Nat))
  | 0, _ => none
  | fuel + 1, start =>
    if start < n then
      let e := min (start + len) n
      if e = n then some [(start, e)]
      else (chunkWindows len ov n fuel (e - ov)).map (fun ws => (start, e) :: ws)
    else some []

/-- The chunk a window emits: the stripped pySlice, dropped when it strips
to empty (the source appends only non-empty stripped chunks). -/
def emit (t : Str) (w : Nat × Nat) : Option Str :=
  if pyStrip (pySlice t w.1 w.2) = [] then none else some (pyStrip (pySlice t w.1 w.2))

/-- chunk_text with the fuel that suffices whenever overlap < length:
one unit per character of the stripped text plus one. -/
def chunk_textD (text : Str) (len ov : Nat) : List Str :=
  (chunk_text ((pyStrip text).length + 1) text len ov).getD []

-- ---------------------------------------------------------------------
-- chunkLoop / chunkWindows correspondence
-- ---------------------------------------------------------------------

theorem chunkLoop_eq_windows (t : Str) (len ov : Nat) :
    ∀ fuel start acc,
      chunkLoop t len ov fuel start acc =
        (chunkWindows len ov t.length fuel start).map
          (fun ws => acc ++ ws.filterMap (emit t)) := by
  intro fuel
  induction fuel with
  | zero => intro start acc; rfl
  | succ fuel ih =>
    intro start acc
    simp only [chunkLoop, chunkWindows]
    by_cases hs : start < t.length
    · simp only [hs, if_true]
      by_cases he : min (start + len) t.length = t.length
      · by_cases hc : pyStrip (pySlice t start t.length) = []
        · simp [he, emit, hc]
        · simp [he, emit, hc]
      · simp only [he, if_false]
        rw [ih]
        cases hw : chunkWindows len ov t.length fuel (min (start + len) t.length - ov) with
        | none => simp [hw]
        | some ws =>
          by_cases hc : pyStrip (pySlice t start (min (start + len) t.length)) = []
          · simp [hw, emit, hc]
          · simp [hw, emit, hc]
    · simp [hs]

-- ---------------------------------------------------------------------
-- C1: termination when overlap >= length
-- ---------------------------------------------------------------------

/-- C1: the claim states that chunk_text terminates for every text even
when overlap >= max_length ("the window start strictly advances").  The
code has no such defense: with text "abcdef", length 3 and overlap 3 the
window start is recomputed as max(0, 3 - 3) = 0 on every iteration, so
the loop never terminates: for every fuel the fueled loop is exhausted
(returns none). -/
theorem C1_chunk_text_diverges :
    (∀ fuel acc, chunkLoop "abcdef".toList 3 3 fuel 0 acc = none) ∧
    (∀ fuel, chunk_text fuel "abcdef".toList 3 3 = none) := by
  have h : ∀ fuel acc, chunkLoop "abcdef".toList 3 3 fuel 0 acc = none := by
    intro fuel
    induction fuel with
    | zero => intro acc; rfl
    | succ fuel ih =>
      intro acc
      simp only [chunkLoop]
      norm_num
      exact ih _
  refine ⟨h, ?_⟩
  intro fuel
  have : pyStrip "abcdef".toList = "abcdef".toList := by decide
  simp only [chunk_text, this]
  norm_num
  exact h fuel []

-- ---------------------------------------------------------------------
-- Well-formed window chains and termination for overlap < length
-- ---------------------------------------------------------------------

/-- WFws len ov n start ws: ws is exactly the window sequence the
chunk_text loop walks from position start: the first window starts at
start and ends at min (start + len) n; a window ending before n is
followed by windows continuing from its end minus the overlap, and the
final window ends exactly at n. -/
def WFws (len ov n : Nat) : Nat → List (Nat × Nat) → Prop
  | _, [] => False
  | start, (s, e) :: rest =>
    s = start ∧ e = min (start + len) n ∧
      ((rest = [] ∧ e = n) ∨ (rest ≠ [] ∧ e < n ∧ WFws len ov n (e - ov) rest))

theorem wf_ne_nil {len ov n start : Nat} {ws : List (Nat × Nat)}
    (h : WFws len ov n start ws) : ws ≠ [] := by
  cases ws with
  | nil => exact absurd h (by simp [WFws])
  | cons a l => simp

/-- When overlap < length, the loop from any position start < n
terminates within n - start iterations and its windows are well
formed. -/
theorem chunkWindows_spec {len ov n : Nat} (hol : ov < len) :
    ∀ fuel start, start < n → n - start ≤ fuel →
      ∃ ws, chunkWindows len ov n fuel start = some ws ∧ WFws len ov n start ws := by
  intro fuel
  induction fuel with
  | zero => intro start h1 h2; omega
  | succ fuel ih =>
    intro start h1 h2
    rcases le_or_lt n (start + len) with hge | hlt
    · -- final window: e = n
      have he : min (start + len) n = n := Nat.min_eq_right hge
      refine ⟨[(start, n)], ?_, ?_⟩
      · simp [chunkWindows, h1, he]
      · simp [WFws, he]
    · -- e = start + len < n, recurse from start + len - ov
      have he : min (start + len) n = start + len := Nat.min_eq_left (Nat.le_of_lt hlt)
      have hne' : start + len ≠ n := by omega
      obtain ⟨ws, hws, hwf⟩ := ih (start + len - ov) (by omega) (by omega)
      refine ⟨(start, start + len) :: ws, ?_, ?_⟩
      · simp [chunkWindows, h1, he, hne', hws]
      · exact ⟨rfl, he.symm, Or.inr ⟨wf_ne_nil hwf, hlt, hwf⟩⟩

theorem wf_head {len ov n start : Nat} {ws : List (Nat × Nat)}
    (h : WFws len ov n start ws) : ws.head? = some (start, min (start + len) n) := by
  cases ws with
  | nil => exact absurd h (by simp [WFws])
  | cons w rest =>
    obtain ⟨hs, he, _⟩ := h
    cases w
    simp_all

theorem wf_last {len ov n : Nat} :
    ∀ {ws : List (Nat × Nat)} {start : Nat}, WFws len ov n start ws → start < n →
      ∃ s, ws.getLast? = some (s, n) ∧ s < n := by
  intro ws
  induction ws with
  | nil => intro start h; exact absurd h (by simp [WFws])
  | cons w rest ih =>
    intro start h hlt
    obtain ⟨w1, w2⟩ := w
    obtain ⟨hs, he, hrest⟩ := h
    rcases hrest with ⟨hnil, hen⟩ | ⟨hne, hen, hwf⟩
    · subst hnil
      refine ⟨w1, ?_, by omega⟩
      rw [← hen]
      simp
    · obtain ⟨s, hl, hsn⟩ := ih hwf (by omega)
      refine ⟨s, ?_, hsn⟩
      rw [← hl]
      cases rest with
      | nil => exact absurd rfl hne
      | cons b l => simp [List.getLast?_cons_cons]

-- ---------------------------------------------------------------------
-- Slice glueing: the cores of the windows tile the text
-- ---------------------------------------------------------------------

/-- Concatenation of consecutive slices: sliceJoin t prev [e1, e2, ...]
is t[prev:e1] ++ t[e1:e2] ++ ... — the core intervals of the windows,
each window minus the overlap it shares with its predecessor. -/
def sliceJoin (t : Str) : Nat → List Nat → Str
  | _, [] => []
  | prev, e :: rest => pySlice t prev e ++ sliceJoin t e rest

theorem pySlice_glue (t : Str) {a b c : Nat} (hab : a ≤ b) (hbc : b ≤ c) :
    pySlice t a b ++ pySlice t b c = pySlice t a c := by
  simp only [pySlice]
  have hdrop : t.drop b = (t.drop a).drop (b - a) := by
    rw [List.drop_drop]
    congr 1
    omega
  rw [hdrop, ← List.take_add]
  congr 1
  omega

theorem wf_sliceJoin (t : Str) {len ov n : Nat} (hol : ov < len) :
    ∀ {ws : List (Nat × Nat)} {start p : Nat}, WFws len ov n start ws →
      p ≤ min (start + len) n →
      sliceJoin t p (ws.map Prod.snd) = pySlice t p n := by
  intro ws
  induction ws with
  | nil => intro start p h; exact absurd h (by simp [WFws])
  | cons w rest ih =>
    intro start p h hp
    obtain ⟨w1, w2⟩ := w
    obtain ⟨hs, he, hrest⟩ := h
    rcases hrest with ⟨hnil, hen⟩ | ⟨hne, hen, hwf⟩
    · subst hnil
      simp only [List.map_cons, List.map_nil, sliceJoin, List.append_nil]
      rw [hen]
    · have hstep : sliceJoin t w2 (rest.map Prod.snd) = pySlice t w2 n :=
        ih hwf (by omega)
      simp only [List.map_cons, sliceJoin, hstep]
      exact pySlice_glue t (by omega) (by omega)

-- ---------------------------------------------------------------------
-- pyStrip lemmas
-- ---------------------------------------------------------------------

/-- Stripping only the trailing whitespace (Python rstrip). -/
def pyStripR (s : Str) : Str :=
  (s.reverse.dropWhile pyIsSpace).reverse

theorem pyStrip_eq_stripR_dropWhile (s : Str) :
    pyStrip s = pyStripR (s.dropWhile pyIsSpace) := rfl

theorem headI_dropWhile_false (p : Char → Bool) :
    ∀ l : Str, l.dropWhile p ≠ [] → p ((l.dropWhile p).headI) = false := by
  intro l
  induction l with
  | nil => intro h; exact absurd rfl h
  | cons c l ih =>
    intro h
    by_cases hc : p c
    · rw [List.dropWhile_cons_of_pos hc] at h ⊢
      exact ih h
    · rw [List.dropWhile_cons_of_neg hc] at h ⊢
      simpa using hc

theorem dropWhile_decomp (p : Char → Bool) (l : Str) :
    ∃ u, l = u ++ l.dropWhile p ∧ ∀ c ∈ u, p c = true := by
  induction l with
  | nil => exact ⟨[], rfl, by simp⟩
  | cons c l ih =>
    by_cases hc : p c
    · obtain ⟨u, hu, hall⟩ := ih
      rw [List.dropWhile_cons_of_pos hc]
      refine ⟨c :: u, by rw [List.cons_append, ← hu], ?_⟩
      intro d hd
      rcases List.mem_cons.mp hd with h | h
      · rw [h]; exact hc
      · exact hall d h
    · rw [List.dropWhile_cons_of_neg hc]
      exact ⟨[], rfl, by simp⟩

theorem stripR_decomp (y : Str) :
    ∃ v, y = pyStripR y ++ v ∧ ∀ c ∈ v, pyIsSpace c = true := by
  obtain ⟨u, hu, hall⟩ := dropWhile_decomp pyIsSpace y.reverse
  refine ⟨u.reverse, ?_, ?_⟩
  · have := congrArg List.reverse hu
    simpa [pyStripR] using this
  · intro c hc
    exact hall c (by simpa using hc)

theorem pyStrip_eq_nil_iff (l : Str) :
    pyStrip l = [] ↔ ∀ c ∈ l, pyIsSpace c = true := by
  constructor
  · intro h c hc
    obtain ⟨u, hu, hallu⟩ := dropWhile_decomp pyIsSpace l
    obtain ⟨v, hv, hallv⟩ := stripR_decomp (l.dropWhile pyIsSpace)
    rw [pyStrip_eq_stripR_dropWhile] at h
    rw [hu, hv, h, List.nil_append] at hc
    rcases List.mem_append.mp hc with h1 | h1
    · exact hallu c h1
    · exact hallv c h1
  · intro h
    have hd : l.dropWhile pyIsSpace = [] := List.dropWhile_eq_nil_iff.mpr (by
      intro x hx; simpa using h x hx)
    rw [pyStrip_eq_stripR_dropWhile, hd]
    rfl

theorem headI_append_left {α} [Inhabited α] (a b : List α) (h : a ≠ []) :
    (a ++ b).headI = a.headI := by
  cases a with
  | nil => exact absurd rfl h
  | cons x l => rfl

theorem pyStripR_ne_nil_of {y : Str} (h : pyStripR y ≠ []) : y ≠ [] := by
  intro hy
  rw [hy] at h
  exact h rfl

/-- The first character of a non-empty stripped string is not
whitespace. -/
theorem pyStrip_headI_not_space (x : Str) (h : pyStrip x ≠ []) :
    pyIsSpace ((pyStrip x).headI) = false := by
  set d := x.dropWhile pyIsSpace with hd
  obtain ⟨v, hv, _⟩ := stripR_decomp d
  have hne : pyStripR d ≠ [] := by
    rw [pyStrip_eq_stripR_dropWhile] at h
    exact h
  have hdne : d ≠ [] := by
    intro h0
    rw [h0] at hne
    exact hne rfl
  have hh : d.headI = (pyStripR d).headI := by
    conv_lhs => rw [hv]
    exact headI_append_left _ _ hne
  have := headI_dropWhile_false pyIsSpace x (by rw [← hd]; exact hdne)
  rw [← hd] at this
  rw [pyStrip_eq_stripR_dropWhile, ← hh]
  exact this

/-- The last character of a non-empty stripped string is not
whitespace. -/
theorem pyStrip_getLast_not_space (x : Str) (h : pyStrip x ≠ []) :
    ∃ c, (pyStrip x).getLast? = some c ∧ pyIsSpace c = false := by
  have hps : pyStrip x = ((x.dropWhile pyIsSpace).reverse.dropWhile pyIsSpace).reverse := rfl
  cases hr : (x.dropWhile pyIsSpace).reverse.dropWhile pyIsSpace with
  | nil =>
    rw [hps, hr] at h
    exact absurd rfl h
  | cons a l =>
    refine ⟨a, ?_, ?_⟩
    · rw [hps, hr, List.getLast?_reverse]
      rfl
    · have := headI_dropWhile_false pyIsSpace (x.dropWhile pyIsSpace).reverse
        (by rw [hr]; simp)
      rw [hr] at this
      simpa using this

theorem getLast?_drop_of_lt (t : Str) (s : Nat) (hs : s < t.length) :
    (t.drop s).getLast? = t.getLast? := by
  have hsplit : t = t.take s ++ t.drop s := (List.take_append_drop s t).symm
  have hne : t.drop s ≠ [] := by
    intro h0
    have := congrArg List.length h0
    simp at this
    omega
  conv_rhs => rw [hsplit]
  rw [List.getLast?_append]
  cases hl : (t.drop s).getLast? with
  | none => exact absurd (List.getLast?_eq_none_iff.mp hl) hne
  | some c => rfl

/-- If the last character of m is not whitespace, stripping m only
removes leading whitespace, and in particular keeps the last
character. -/
theorem pyStrip_keeps_last (m : Str) (c : Char) (hl : m.getLast? = some c)
    (hc : pyIsSpace c = false) :
    pyStrip m = m.dropWhile pyIsSpace ∧
      (pyStrip m).getLast? = some c ∧ pyStrip m ≠ [] := by
  have hmem : c ∈ m := List.mem_of_getLast?_eq_some hl
  have hdne : m.dropWhile pyIsSpace ≠ [] := by
    intro h0
    have := List.dropWhile_eq_nil_iff.mp h0 c hmem
    simp [hc] at this
  obtain ⟨u, hu, _⟩ := dropWhile_decomp pyIsSpace m
  have hlast : (m.dropWhile pyIsSpace).getLast? = some c := by
    rw [hu, List.getLast?_append] at hl
    cases hdl : (m.dropWhile pyIsSpace).getLast? with
    | none => exact absurd (List.getLast?_eq_none_iff.mp hdl) hdne
    | some d => rw [hdl] at hl; simpa using hl
  have hrev : (m.dropWhile pyIsSpace).reverse.head? = some c := by
    rw [List.head?_reverse]; exact hlast
  have hdrop : (m.dropWhile pyIsSpace).reverse.dropWhile pyIsSpace =
      (m.dropWhile pyIsSpace).reverse := by
    cases hv : (m.dropWhile pyIsSpace).reverse with
    | nil => rfl
    | cons a l =>
      rw [hv] at hrev
      have ha : a = c := by simpa using hrev
      rw [List.dropWhile_cons_of_neg]
      rw [ha, hc]
      simp
  have hstrip : pyStrip m = m.dropWhile pyIsSpace := by
    rw [pyStrip_eq_stripR_dropWhile, pyStripR, hdrop, List.reverse_reverse]
  refine ⟨hstrip, ?_, ?_⟩
  · rw [hstrip]; exact hlast
  · rw [hstrip]; exact hdne

theorem getLast?_filterMap_last {α β} (f : α → Option β) :
    ∀ (l : List α) (a : α) (c : β), l.getLast? = some a → f a = some c →
      (l.filterMap f).getLast? = some c := by
  intro l
  induction l with
  | nil => intro a c h; simp at h
  | cons x xs ih =>
    intro a c hlast hf
    cases xs with
    | nil =>
      have hx : x = a := by simpa using hlast
      subst hx
      simp [List.filterMap_cons, hf]
    | cons y ys =>
      have hlast' : (y :: ys).getLast? = some a := by
        rw [← hlast]; exact List.getLast?_cons_cons.symm
      have htail := ih a c hlast' hf
      have hne : (y :: ys).filterMap f ≠ [] := by
        intro h0
        rw [h0] at htail
        simp at htail
      rw [List.filterMap_cons]
      cases f x with
      | none => exact htail
      | some b =>
        cases hfm : (y :: ys).filterMap f with
        | nil => exact absurd hfm hne
        | cons z zs =>
          rw [hfm] at htail
          rw [List.getLast?_cons_cons]
          exact htail

theorem filterMap_ne_nil_of_head {α β} (f : α → Option β) (l : List α) (a : α) (c : β)
    (hh : l.head? = some a) (hf : f a = some c) : l.filterMap f ≠ [] := by
  cases l with
  | nil => simp at hh
  | cons x xs =>
    have hx : x = a := by simpa using hh
    subst hx
    simp [List.filterMap_cons, hf]

theorem headI_mem_take (t : Str) (e : Nat) (ht : t ≠ []) (he : 1 ≤ e) :
    t.headI ∈ t.take e := by
  cases t with
  | nil => exact absurd rfl ht
  | cons c l =>
    cases e with
    | zero => omega
    | succ e => simp

theorem pySlice_zero (t : Str) (e : Nat) : pySlice t 0 e = t.take e := by
  simp [pySlice]

theorem pySlice_to_end (t : Str) (s : Nat) : pySlice t s t.length = t.drop s := by
  have : (t.drop s).length = t.length - s := by simp
  rw [pySlice, ← this, List.take_length]

/-- C3: for every input text whose trimmed form is non-empty (and
well-formed parameters overlap < length, under which the source loop
terminates), chunk_text returns the non-empty stripped windows: at
least one chunk is returned; the windows' core intervals (each window
minus the overlap shared with its predecessor) concatenate to exactly
the whole stripped input, so they tile it exactly once with no gaps;
the final window ends exactly at the input's end and the final chunk
retains the input's final character (no lost trailing characters). -/
theorem C3_chunk_text_tiling (text : Str) (len ov : Nat) (hol : ov < len)
    (hne : pyStrip text ≠ []) :
    ∃ ws : List (Nat × Nat),
      chunkWindows len ov (pyStrip text).length ((pyStrip text).length + 1) 0 = some ws ∧
      WFws len ov (pyStrip text).length 0 ws ∧
      chunk_text ((pyStrip text).length + 1) text len ov =
        some (ws.filterMap (emit (pyStrip text))) ∧
      chunk_textD text len ov = ws.filterMap (emit (pyStrip text)) ∧
      ws.filterMap (emit (pyStrip text)) ≠ [] ∧
      sliceJoin (pyStrip text) 0 (ws.map Prod.snd) = pyStrip text ∧
      ∃ s, s < (pyStrip text).length ∧ ws.getLast? = some (s, (pyStrip text).length) ∧
        (ws.filterMap (emit (pyStrip text))).getLast? =
          some (pyStrip ((pyStrip text).drop s)) ∧
        (pyStrip ((pyStrip text).drop s)).getLast? = (pyStrip text).getLast? := by
  set t := pyStrip text with ht
  have hn : 0 < t.length := List.length_pos.mpr hne
  obtain ⟨ws, hws, hwf⟩ := chunkWindows_spec hol (t.length + 1) 0 hn (by omega)
  have hct : chunk_text (t.length + 1) text len ov = some (ws.filterMap (emit t)) := by
    simp only [chunk_text, ← ht]
    rw [if_neg hne, chunkLoop_eq_windows, hws]
    simp
  refine ⟨ws, hws, hwf, hct, ?_, ?_, ?_, ?_⟩
  · simp only [chunk_textD, ← ht, hct]
    rfl
  · -- at least one chunk: the first window strips to a non-empty chunk
    have hhead := wf_head hwf
    have he1 : 1 ≤ min (0 + len) t.length := by
      have : 1 ≤ len := by omega
      omega
    have hfirst : emit t (0, min (0 + len) t.length) =
        some (pyStrip (t.take (min (0 + len) t.length))) := by
      have hmem : t.headI ∈ t.take (min (0 + len) t.length) :=
        headI_mem_take t _ hne he1
      have hnb : pyStrip (t.take (min (0 + len) t.length)) ≠ [] := by
        intro h0
        have := (pyStrip_eq_nil_iff _).mp h0 t.headI hmem
        have hhd := pyStrip_headI_not_space text hne
        rw [← ht] at hhd
        rw [hhd] at this
        exact Bool.false_ne_true this
      simp only [emit, pySlice_zero]
      rw [if_neg hnb]
    exact filterMap_ne_nil_of_head (emit t) ws _ _ hhead hfirst
  · -- tiling: core intervals concatenate to the whole input
    have := wf_sliceJoin t hol hwf (p := 0) (by omega)
    rw [this, pySlice_zero, List.take_length]
  · -- the final chunk reaches the input's end
    obtain ⟨s, hlast, hs⟩ := wf_last hwf hn
    obtain ⟨c, hcl, hcs⟩ := pyStrip_getLast_not_space text hne
    rw [← ht] at hcl
    have hdl : (t.drop s).getLast? = some c := by
      rw [getLast?_drop_of_lt t s hs]; exact hcl
    obtain ⟨_, hkl, hkn⟩ := pyStrip_keeps_last (t.drop s) c hdl hcs
    have hemit : emit t (s, t.length) = some (pyStrip (t.drop s)) := by
      simp only [emit, pySlice_to_end]
      rw [if_neg hkn]
    refine ⟨s, hs, hlast, ?_, ?_⟩
    · exact getLast?_filterMap_last (emit t) ws _ _ hlast hemit
    · rw [hkl, hcl]

/-- Witness for C3 at the concrete input "ab" with length 2 and
overlap 1. -/
theorem C3_chunk_text_tiling_witness :
    ((1 : Nat) < 2 ∧ pyStrip "ab".toList ≠ []) ∧
    (∃ ws : List (Nat × Nat),
      chunkWindows 2 1 (pyStrip "ab".toList).length ((pyStrip "ab".toList).length + 1) 0 =
        some ws ∧
      WFws 2 1 (pyStrip "ab".toList).length 0 ws ∧
      chunk_text ((pyStrip "ab".toList).length + 1) "ab".toList 2 1 =
        some (ws.filterMap (emit (pyStrip "ab".toList))) ∧
      chunk_textD "ab".toList 2 1 = ws.filterMap (emit (pyStrip "ab".toList)) ∧
      ws.filterMap (emit (pyStrip "ab".toList)) ≠ [] ∧
      sliceJoin (pyStrip "ab".toList) 0 (ws.map Prod.snd) = pyStrip "ab".toList ∧
      ∃ s, s < (pyStrip "ab".toList).length ∧
        ws.getLast? = some (s, (pyStrip "ab".toList).length) ∧
        (ws.filterMap (emit (pyStrip "ab".toList))).getLast? =
          some (pyStrip ((pyStrip "ab".toList).drop s)) ∧
        (pyStrip ((pyStrip "ab".toList).drop s)).getLast? =
          (pyStrip "ab".toList).getLast?) :=
  ⟨⟨by decide, by decide⟩, C3_chunk_text_tiling "ab".toList 2 1 (by decide) (by decide)⟩

theorem pyStrip_replicate (k : Nat) (c : Char) (hc : pyIsSpace c = false) :
    pyStrip (List.replicate k c) = List.replicate k c := by
  simp [pyStrip, List.dropWhile_replicate, hc]

theorem replicate_char_ne_nil (k : Nat) (c : Char) (hk : 0 < k) :
    List.replicate k c ≠ [] := by
  intro h
  have := congrArg List.length h
  simp at this
  omega

/-- C4: a 40000-character transcript with max_length 15000 and
overlap 800 yields exactly 3 chunks; the window start offsets are 0,
14200 and 28400, and the third window's end is forced to exactly
40000 (the windows being (0,15000), (14200,29200), (28400,40000)). -/
theorem C4_example_40000 :
    chunkWindows 15000 800 40000 40001 0 =
      some [(0, 15000), (14200, 29200), (28400, 40000)] ∧
    chunk_textD (List.replicate 40000 'a') 15000 800 =
      [List.replicate 15000 'a', List.replicate 15000 'a', List.replicate 11600 'a'] ∧
    (chunk_textD (List.replicate 40000 'a') 15000 800).length = 3 := by
  have hw : chunkWindows 15000 800 40000 40001 0 =
      some [(0, 15000), (14200, 29200), (28400, 40000)] := by decide
  have hcs : pyIsSpace 'a' = false := by decide
  have hrep : pyStrip (List.replicate 40000 'a') = List.replicate 40000 'a' :=
    pyStrip_replicate _ _ hcs
  have hchunks : chunk_textD (List.replicate 40000 'a') 15000 800 =
      [List.replicate 15000 'a', List.replicate 15000 'a', List.replicate 11600 'a'] := by
    simp only [chunk_textD, chunk_text, hrep, List.length_replicate]
    rw [if_neg (replicate_char_ne_nil 40000 'a' (by omega))]
    rw [chunkLoop_eq_windows]
    simp only [List.length_replicate, hw, Option.map_some', Option.getD_some,
      List.nil_append]
    have e1 : emit (List.replicate 40000 'a') (0, 15000) =
        some (List.replicate 15000 'a') := by
      have h1 : pySlice (List.replicate 40000 'a') ((0:Nat), (15000:Nat)).1
          ((0:Nat), (15000:Nat)).2 = List.replicate 15000 'a' := by
        rw [pySlice, List.drop_replicate, List.take_replicate]
        norm_num
      simp only [emit, h1, pyStrip_replicate _ 'a' hcs]
      rw [if_neg (replicate_char_ne_nil 15000 'a' (by omega))]
    have e2 : emit (List.replicate 40000 'a') (14200, 29200) =
        some (List.replicate 15000 'a') := by
      have h1 : pySlice (List.replicate 40000 'a') ((14200:Nat), (29200:Nat)).1
          ((14200:Nat), (29200:Nat)).2 = List.replicate 15000 'a' := by
        rw [pySlice, List.drop_replicate, List.take_replicate]
        norm_num
      simp only [emit, h1, pyStrip_replicate _ 'a' hcs]
      rw [if_neg (replicate_char_ne_nil 15000 'a' (by omega))]
    have e3 : emit (List.replicate 40000 'a') (28400, 40000) =
        some (List.replicate 11600 'a') := by
      have h1 : pySlice (List.replicate 40000 'a') ((28400:Nat), (40000:Nat)).1
          ((28400:Nat), (40000:Nat)).2 = List.replicate 11600 'a' := by
        rw [pySlice, List.drop_replicate, List.take_replicate]
        norm_num
      simp only [emit, h1, pyStrip_replicate _ 'a' hcs]
      rw [if_neg (replicate_char_ne_nil 11600 'a' (by omega))]
    rw [List.filterMap_cons_some e1, List.filterMap_cons_some e2,
      List.filterMap_cons_some e3, List.filterMap_nil]
  exact ⟨hw, hchunks, by rw [hchunks]; rfl⟩

-- ---------------------------------------------------------------------
-- Pipeline embedding: names, transcript readers, file store
-- ---------------------------------------------------------------------

/-- Lexicographic comparison of strings by character code (models the
ordering Python sorted() applies to file names). -/
def strLE : Str → Str → Bool
  | [], _ => true
  | _ :: _, [] => false
  | a :: as, b :: bs =>
    if a.toNat < b.toNat then true
    else if b.toNat < a.toNat then false
    else strLE as bs

def insertBy {α} (le : α → α → Bool) (x : α) : List α → List α
  | [] => [x]
  | y :: ys => if le x y then x :: y :: ys else y :: insertBy le x ys

/-- Insertion sort; models Python sorted() (all keys sorted in the
pipeline are distinct file names, so stability is immaterial). -/
def sortBy {α} (le : α → α → Bool) : List α → List α
  | [] => []
  | x :: xs => insertBy le x (sortBy le xs)

def sortStr : List Str → List Str := sortBy strLE

theorem mem_insertBy {α} (le : α → α → Bool) (x a : α) :
    ∀ l : List α, a ∈ insertBy le x l ↔ a = x ∨ a ∈ l := by
  intro l
  induction l with
  | nil => simp [insertBy]
  | cons y ys ih =>
    simp only [insertBy]
    by_cases h : le x y
    · simp [h]
    · simp [h, ih]
      tauto

theorem mem_sortBy {α} (le : α → α → Bool) (a : α) :
    ∀ l : List α, a ∈ sortBy le l ↔ a ∈ l := by
  intro l
  induction l with
  | nil => simp [sortBy]
  | cons x xs ih =>
    simp only [sortBy, mem_insertBy, List.mem_cons, ih]

theorem nodup_insertBy {α} (le : α → α → Bool) (x : α) :
    ∀ {l : List α}, l.Nodup → x ∉ l → (insertBy le x l).Nodup := by
  intro l
  induction l with
  | nil => intro _ _; simp [insertBy]
  | cons y ys ih =>
    intro hm hxm
    rcases List.nodup_cons.mp hm with ⟨hy, hys⟩
    have hxm' := hxm
    rw [List.mem_cons, not_or] at hxm'
    obtain ⟨hxy, hxys⟩ := hxm'
    simp only [insertBy]
    by_cases hle : le x y
    · simp only [hle, if_true]
      exact List.nodup_cons.mpr ⟨hxm, hm⟩
    · simp only [hle, if_false]
      refine List.nodup_cons.mpr ⟨?_, ih hys hxys⟩
      rw [mem_insertBy]
      push_neg
      exact ⟨fun h0 => hxy h0.symm, hy⟩

theorem nodup_sortBy {α} (le : α → α → Bool) :
    ∀ l : List α, l.Nodup → (sortBy le l).Nodup := by
  intro l
  induction l with
  | nil => intro h; simp [sortBy]
  | cons x xs ih =>
    intro h
    rcases List.nodup_cons.mp h with ⟨hx, hxs⟩
    exact nodup_insertBy le x (ih hxs) (by rw [mem_sortBy]; exact hx)

/-- Lowercasing a name, as Python str.lower() on ASCII. -/
def lowerStr (s : Str) : Str := s.map Char.toLower

/-- Path.suffix: the final extension including the dot, empty when the
name has no dot (common cases of the Python stdlib behaviour). -/
def pySuffix (s : Str) : Str :=
  let rev := s.reverse.takeWhile (fun c => ¬ (c = '.'))
  if rev.length < s.length then '.' :: rev.reverse else []

/-- Path.stem: the name with its suffix removed. -/
def pyStem (s : Str) : Str := s.take (s.length - (pySuffix s).length)

/-- Does the name end with the given literal (models glob patterns of
the shape *X and Path.suffix comparisons)? -/
def endsWithStr (sfx s : Str) : Bool := List.isSuffixOf sfx s

/-- Does pat occur as a contiguous subsequence of s (models a glob
*pat* component)? -/
def containsSeq (pat : Str) : Str → Bool
  | [] => pat.isEmpty
  | c :: rest => List.isPrefixOf pat (c :: rest) || containsSeq pat rest

/-- Splitting file content into lines at newline characters (Python
iteration over an open text file, with the newline stripped later by
str.strip()). -/
def splitLines : Str → List Str
  | [] => [[]]
  | c :: rest =>
    if c = '\n' then [] :: splitLines rest
    else
      match splitLines rest with
      | [] => [[c]]
      | h :: t => (c :: h) :: t

/-- Python str.isdigit: non-empty and all digits. -/
def pyIsDigitStr (l : Str) : Bool := !l.isEmpty && l.all Char.isDigit

/-- The "-->" timestamp marker. -/
def arrowMark : Str := "-->".toList

/-- read_srt: keep stripped lines that are non-empty, not pure digits,
and do not contain the "-->" marker; join with newlines. -/
def read_srt (content : Str) : Str :=
  List.intercalate "\n".toList
    ((splitLines content).filterMap (fun raw =>
      let line := pyStrip raw
      if line = [] || pyIsDigitStr line || containsSeq arrowMark line then none
      else some line))

/-- read_vtt: additionally drop header/meta lines (WEBVTT, NOTE, STYLE,
REGION). -/
def read_vtt (content : Str) : Str :=
  List.intercalate "\n".toList
    ((splitLines content).filterMap (fun raw =>
      let line := pyStrip raw
      if line = [] || List.isPrefixOf "WEBVTT".toList line
          || List.isPrefixOf "NOTE".toList line
          || List.isPrefixOf "STYLE".toList line
          || List.isPrefixOf "REGION".toList line
          || containsSeq arrowMark line || pyIsDigitStr line then none
      else some line))

/-- read_txt: the raw content unchanged. -/
def read_txt (content : Str) : Str := content

/-- load_transcript dispatches on the lowercased suffix of the file
name. -/
def load_transcript (name content : Str) : Str :=
  if lowerStr (pySuffix name) = ".srt".toList then read_srt content
  else if lowerStr (pySuffix name) = ".vtt".toList then read_vtt content
  else read_txt content

/-- A raw transcript file: full file name (with extension) and raw
content. -/
structure RawFile where
  name : Str
  content : Str
deriving DecidableEq

/-- The artifact store: the four partitions the scripts touch.  Each
partition is a list of (file name, content) entries; transcriptsDirExists
models TRANSCRIPTS_DIR.exists(). -/
structure FS where
  transcriptsDirExists : Bool
  transcripts : List RawFile
  processed : List (Str × Str)
  daily : List (Str × Str)
  master : Option Str
  reports : List (Str × Str × Str)
deriving DecidableEq

/-- Observable document/model events of a pipeline run, in program
order. -/
inductive Ev where
  | readRaw (name : Str)
  | delProcessed (name : Str)
  | writeProcessed (name : Str)
  | readProcessed (name : Str)
  | readDaily (name : Str)
  | writeDaily (name : Str)
  | writeMaster
  | writeReport
  | llm (system user : Str)
  | opFail (stage : Str)
deriving DecidableEq

/-- Write (create or overwrite) a file in a partition. -/
def fsWrite (part : List (Str × Str)) (name content : Str) : List (Str × Str) :=
  if part.any (fun e => e.1 = name) then
    part.map (fun e => if e.1 = name then (name, content) else e)
  else part ++ [(name, content)]

/-- Read a file from a partition. -/
def fsLookup (part : List (Str × Str)) (name : Str) : Option Str :=
  (part.find? (fun e => e.1 = name)).map (fun e => e.2)

-- ---------------------------------------------------------------------
-- process_transcripts (summarize_enhanced.py, Step 0)
-- ---------------------------------------------------------------------

def txtExt : Str := ".txt".toList

/-- Is this raw file a .srt/.vtt input (suffix lowercased, as in the
source's suffix.lower() membership test)? -/
def isSrtVtt (f : RawFile) : Bool :=
  lowerStr (pySuffix f.name) = ".srt".toList || lowerStr (pySuffix f.name) = ".vtt".toList

/-- The sections a stem contributes: each of its files loaded and
stripped, empty ones skipped. -/
def stemSections (raws : List RawFile) (stem : Str) : List Str :=
  (raws.filter (fun f => pyStem f.name = stem)).filterMap (fun f =>
    let t := pyStrip (load_transcript f.name f.content)
    if t = [] then none else some t)

/-- The combined daily text written for a stem. -/
def stemContent (raws : List RawFile) (stem : Str) : Str :=
  List.intercalate "\n\n".toList (stemSections raws stem)

/-- The per-stem loop of process_transcripts: read each group's files,
combine the non-empty sections, write stem.txt when any section
remains.  Returns (updated store, processed paths, events). -/
def processStems (raws : List RawFile) : FS → List Str → FS × List Str × List Ev
  | fs, [] => (fs, [], [])
  | fs, stem :: rest =>
    let evR := (raws.filter (fun f => pyStem f.name = stem)).map (fun f => Ev.readRaw f.name)
    if stemSections raws stem = [] then
      let r := processStems raws fs rest
      (r.1, r.2.1, evR ++ r.2.2)
    else
      let nm := stem ++ txtExt
      let fsW := { fs with processed := fsWrite fs.processed nm (stemContent raws stem) }
      let r := processStems raws fsW rest
      (r.1, nm :: r.2.1, evR ++ Ev.writeProcessed nm :: r.2.2)

/-- The sorted .srt/.vtt raw inputs process_transcripts works on. -/
def normRaws (fs : FS) : List RawFile :=
  sortBy (fun f g => strLE f.name g.name) (fs.transcripts.filter isSrtVtt)

/-- The sorted distinct stems of the raw inputs (sorted(grouped_files
keys)). -/
def normStems (fs : FS) : List Str :=
  sortStr (((normRaws fs).map (fun f => pyStem f.name)).dedup)

/-- The stems that yield non-empty combined text, in processing
order. -/
def goodStems (fs : FS) : List Str :=
  (normStems fs).filter (fun s => !(stemSections (normRaws fs) s).isEmpty)

/-- process_transcripts(): returns [] untouched when the transcripts
directory is missing or holds no .srt/.vtt files; otherwise deletes
every .txt file of the processed partition, then writes one combined
.txt per stem that yielded non-empty text. -/
def process_transcripts (fs : FS) : FS × List Str × List Ev :=
  if ¬ fs.transcriptsDirExists then (fs, [], [])
  else if normRaws fs = [] then (fs, [], [])
  else
    let delNames := (fs.processed.map (fun e => e.1)).filter (endsWithStr txtExt)
    let fs1 := { fs with processed := fs.processed.filter (fun e => !(endsWithStr txtExt e.1)) }
    let r := processStems (normRaws fs) fs1 (normStems fs)
    (r.1, r.2.1, delNames.map Ev.delProcessed ++ r.2.2)

-- ---------------------------------------------------------------------
-- Model gateway, prompts, daily summarization
-- ---------------------------------------------------------------------

/-- A chat backend: system prompt and user prompt to response; none
models a raised exception in the underlying call. -/
def LLM : Type := Str → Str → Option Str

/-- One issued call: the (system prompt, user prompt) pair. -/
abbrev Call := Str × Str

/-- The prompt constants of a script, threaded as a parameter record;
their literal wording is free-text data and every claim is proved for
all prompt values.  The user-prompt templates are the .format
substitutions. -/
structure Prompts where
  dailySystem : Str
  dailyUser : Str → Str
  masterSystem : Str
  masterUser : Str → Str
  openingSystem : Str
  openingUser : Str → Str
  closingSystem : Str
  closingUser : Str → Str

/-- The separator "\n\n---\n\n" joining chunk summaries before the
compression call. -/
def chunkSep : Str := "\n\n---\n\n".toList

/-- The per-chunk loop of summarize_transcript_file: one backend call
per chunk in order, each response stripped; an exception (none) aborts
the loop.  Also returns the chronological list of issued calls. -/
def runChunkCalls (cl : LLM) (P : Prompts) : List Str → Option (List Str) × List Call
  | [] => (some [], [])
  | c :: cs =>
    let usr := P.dailyUser c
    match cl P.dailySystem usr with
    | none => (none, [(P.dailySystem, usr)])
    | some r =>
      let rest := runChunkCalls cl P cs
      (rest.1.map (fun l => pyStrip r :: l), (P.dailySystem, usr) :: rest.2)

/-- summarize_transcript_file, shared shape of both scripts: load the
transcript, chunk it with the module chunk parameters, summarize each
chunk with the chunk backend cl, and when more than one chunk result
exists issue one extra compression call on the merge backend ml
(summarize_enhanced.py passes the same backend for both; the resume
script uses Cerebras for cl and OpenAI for ml).  Result: (the returned
summary text, or none when a call raised; the issued calls in
order). -/
def summarize_transcript_file (cl ml : LLM) (P : Prompts) (name content : Str) :
    Option Str × List Call :=
  let raw := load_transcript name content
  let chunks := chunk_textD raw CHUNK_CHAR_LENGTH CHUNK_CHAR_OVERLAP
  if chunks = [] then (some [], [])
  else
    let rc := runChunkCalls cl P chunks
    let tr := rc.2
    match rc.1 with
    | none => (none, tr)
    | some parts =>
      if parts.length = 1 then (some parts.headI, tr)
      else
        let merged := List.intercalate chunkSep parts
        let usr := P.dailyUser merged
        match ml P.dailySystem usr with
        | none => (none, tr ++ [(P.dailySystem, usr)])
        | some fin => (some (pyStrip fin), tr ++ [(P.dailySystem, usr)])

/-- The "=== name ===" header prepended to each daily summary in the
master-synthesis input. -/
def masterHeader (nm : Str) : Str :=
  "=== ".toList ++ nm ++ " ===\n".toList

/-- The concatenated master-synthesis input built from the (name,
content) pairs of the daily summary files read. -/
def masterCombined (files : List (Str × Str)) : Str :=
  List.intercalate "\n\n\n".toList
    (files.map (fun f => masterHeader f.1 ++ pyStrip f.2))

/-- create_master_summary: read every daily summary file handed to it,
build the delimited block, issue one master call, strip the result.
Returns (result or none on failure, events: the reads and the call). -/
def create_master_summary (llm : LLM) (P : Prompts) (files : List (Str × Str)) :
    Option Str × List Ev :=
  let usr := P.masterUser (masterCombined files)
  let evs := files.map (fun f => Ev.readDaily f.1) ++ [Ev.llm P.masterSystem usr]
  match llm P.masterSystem usr with
  | none => (none, evs)
  | some m => (some (pyStrip m), evs)

/-- generate_opening_paragraph: one call on the first 3000 characters
of the report content; result stripped. -/
def generate_opening_paragraph (llm : LLM) (P : Prompts) (m : Str) : Option Str × Call :=
  let usr := P.openingUser (m.take 3000)
  ((llm P.openingSystem usr).map pyStrip, (P.openingSystem, usr))

/-- The "\n...\n" ellipsis between the leading and trailing excerpt of
the closing sample. -/
def closingDots : Str := "\n...\n".toList

/-- generate_closing_paragraph: one call on the first 2000 plus last
1000 characters of the report content; result stripped. -/
def generate_closing_paragraph (llm : LLM) (P : Prompts) (m : Str) : Option Str × Call :=
  let sample := m.take 2000 ++ closingDots ++ m.drop (m.length - 1000)
  let usr := P.closingUser sample
  ((llm P.closingSystem usr).map pyStrip, (P.closingSystem, usr))

def openingStage : Str := "opening".toList

def closingStage : Str := "closing".toList

def masterStage : Str := "master".toList

def dailyStage : Str := "daily".toList

/-- Steps opening/closing/report of both main() functions: a failed
opening or closing call is caught, reported (opFail), and replaced by
the empty string; the report document is then always produced from the
master text and the two paragraphs. -/
def finishReport (llm : LLM) (P : Prompts) (fs : FS) (m : Str) : FS × List Ev :=
  let og := generate_opening_paragraph llm P m
  let oev := [Ev.llm og.2.1 og.2.2] ++
    (match og.1 with | none => [Ev.opFail openingStage] | some _ => [])
  let otext := og.1.getD []
  let cg := generate_closing_paragraph llm P m
  let cev := [Ev.llm cg.2.1 cg.2.2] ++
    (match cg.1 with | none => [Ev.opFail closingStage] | some _ => [])
  let ctext := cg.1.getD []
  ({ fs with reports := fs.reports ++ [(m, otext, ctext)] },
    oev ++ cev ++ [Ev.writeReport])

-- ---------------------------------------------------------------------
-- main() of summarize_enhanced.py

/-- How a run of main() ends. -/
inductive Outcome where
  | earlyNoTranscripts
  | configError
  | earlyNoDailies
  | abortedMaster
  | finished
deriving DecidableEq

/-- Daily summary file names: stem + "_summary.txt". -/
def summarySfx : Str := "_summary.txt".toList

/-- Step 1 of the enhanced main(): for each processed transcript path,
summarize it (errors are caught and reported, empty summaries skipped)
and persist the daily summary.  Returns (store, written daily paths,
events). -/
def enhStep1 (llm : LLM) (P : Prompts) : FS → List Str → FS × List Str × List Ev
  | fs, [] => (fs, [], [])
  | fs, nm :: rest =>
    let content := (fsLookup fs.processed nm).getD []
    let sres := summarize_transcript_file llm llm P nm content
    let evH := Ev.readProcessed nm :: sres.2.map (fun c => Ev.llm c.1 c.2)
    match sres.1 with
    | none =>
      let r := enhStep1 llm P fs rest
      (r.1, r.2.1, evH ++ [Ev.opFail dailyStage] ++ r.2.2)
    | some s =>
      if s = [] then
        let r := enhStep1 llm P fs rest
        (r.1, r.2.1, evH ++ r.2.2)
      else
        let dn := pyStem nm ++ summarySfx
        let fsW := { fs with daily := fsWrite fs.daily dn s }
        let r := enhStep1 llm P fsW rest
        (r.1, dn :: r.2.1, evH ++ [Ev.writeDaily dn] ++ r.2.2)

/-- Environment of a summarize_enhanced.py run: the store, whether
OPENAI_API_KEY is set, the backend, and the prompt constants. -/
structure EnhEnv where
  fs : FS
  hasKey : Bool
  llm : LLM
  P : Prompts

/-- main() of summarize_enhanced.py: normalize transcripts, return if
none were produced; only then load_llm (which raises when the key is
missing); daily summaries; master synthesis (terminal on failure);
opening, closing, report. -/
def enhanced_main (env : EnhEnv) : FS × List Ev × Outcome :=
  let pr := process_transcripts env.fs
  if pr.2.1 = [] then (pr.1, pr.2.2, Outcome.earlyNoTranscripts)
  else if ¬ env.hasKey then (pr.1, pr.2.2, Outcome.configError)
  else
    let s1 := enhStep1 env.llm env.P pr.1 pr.2.1
    if s1.2.1 = [] then (s1.1, pr.2.2 ++ s1.2.2, Outcome.earlyNoDailies)
    else
      let files := s1.2.1.map (fun nm => (nm, (fsLookup s1.1.daily nm).getD []))
      let cm := create_master_summary env.llm env.P files
      match cm.1 with
      | none =>
        (s1.1, pr.2.2 ++ s1.2.2 ++ cm.2 ++ [Ev.opFail masterStage], Outcome.abortedMaster)
      | some m =>
        let fs2 := { s1.1 with master := some m }
        let fr := finishReport env.llm env.P fs2 m
        (fr.1, pr.2.2 ++ s1.2.2 ++ cm.2 ++ [Ev.writeMaster] ++ fr.2, Outcome.finished)

-- ---------------------------------------------------------------------
-- main() of summarize_resume.py
-- ---------------------------------------------------------------------

def srtExt : Str := ".srt".toList

def vttExt : Str := ".vtt".toList

/-- find_transcript_for_day: the first file of the processed partition
matching glob *day*.txt, else the first raw file matching *day*.srt,
then *day*.vtt.  Returns the file's (name, raw content). -/
def find_transcript_for_day (fs : FS) (day : Str) : Option (Str × Str) :=
  match fs.processed.find? (fun e =>
      endsWithStr txtExt e.1 && containsSeq day (e.1.take (e.1.length - txtExt.length))) with
  | some e => some (e.1, e.2)
  | none =>
    match fs.transcripts.find? (fun f =>
        endsWithStr srtExt f.name &&
          containsSeq day (f.name.take (f.name.length - srtExt.length))) with
    | some f => some (f.name, f.content)
    | none =>
      match fs.transcripts.find? (fun f =>
          endsWithStr vttExt f.name &&
            containsSeq day (f.name.take (f.name.length - vttExt.length))) with
      | some f => some (f.name, f.content)
      | none => none

/-- Step 1 of the resume main(): for each requested day, find its
transcript (skipped when absent), summarize it with the Cerebras
backend for chunks and the OpenAI backend for the merge, and persist
the daily summary under the transcript's stem.  Events record the
model calls and daily writes. -/
def resumeStep1 (cl ol : LLM) (P : Prompts) : FS → List Str → FS × List Str × List Ev
  | fs, [] => (fs, [], [])
  | fs, d :: ds =>
    match find_transcript_for_day fs d with
    | none => resumeStep1 cl ol P fs ds
    | some f =>
      let sres := summarize_transcript_file cl ol P f.1 f.2
      let evH := sres.2.map (fun c => Ev.llm c.1 c.2)
      match sres.1 with
      | none =>
        let r := resumeStep1 cl ol P fs ds
        (r.1, r.2.1, evH ++ [Ev.opFail dailyStage] ++ r.2.2)
      | some s =>
        if s = [] then
          let r := resumeStep1 cl ol P fs ds
          (r.1, r.2.1, evH ++ r.2.2)
        else
          let dn := pyStem f.1 ++ summarySfx
          let fsW := { fs with daily := fsWrite fs.daily dn s }
          let r := resumeStep1 cl ol P fsW ds
          (r.1, dn :: r.2.1, evH ++ [Ev.writeDaily dn] ++ r.2.2)

/-- The daily summary files the resume script gathers for master
synthesis: glob "*_summary.txt" over the daily partition, sorted. -/
def dailyGlobNames (fs : FS) : List Str :=
  sortStr ((fs.daily.map (fun e => e.1)).filter (fun nm => endsWithStr summarySfx nm))

/-- Environment of a summarize_resume.py run: the store, the two
credentials, the two backends, the prompts, and the editable
configuration (DAYS_TO_PROCESS, SKIP_DAILY_SUMMARIES). -/
structure ResEnv where
  fs : FS
  hasCereKey : Bool
  hasOaiKey : Bool
  cere : LLM
  oai : LLM
  P : Prompts
  days : List Str
  skipDaily : Bool

/-- main() of summarize_resume.py: load both backends first (a missing
credential raises before anything else happens); optionally regenerate
the requested days' daily summaries; gather all *_summary.txt files;
master synthesis (terminal on failure); opening, closing, report. -/
def resume_main (env : ResEnv) : FS × List Ev × Outcome :=
  if ¬ env.hasCereKey then (env.fs, [], Outcome.configError)
  else if ¬ env.hasOaiKey then (env.fs, [], Outcome.configError)
  else
    let s1 := if !env.skipDaily && !env.days.isEmpty then
        resumeStep1 env.cere env.oai env.P env.fs env.days
      else (env.fs, [], [])
    let names := dailyGlobNames s1.1
    if names = [] then (s1.1, s1.2.2, Outcome.earlyNoDailies)
    else
      let files := names.map (fun nm => (nm, (fsLookup s1.1.daily nm).getD []))
      let cm := create_master_summary env.oai env.P files
      match cm.1 with
      | none =>
        (s1.1, s1.2.2 ++ cm.2 ++ [Ev.opFail masterStage], Outcome.abortedMaster)
      | some m =>
        let fs2 := { s1.1 with master := some m }
        let fr := finishReport env.oai env.P fs2 m
        (fr.1, s1.2.2 ++ cm.2 ++ [Ev.writeMaster] ++ fr.2, Outcome.finished)

-- ---------------------------------------------------------------------
-- C5 / C6: daily summarization call counts and single-chunk result
-- ---------------------------------------------------------------------

theorem runChunkCalls_ok (cl : LLM) (P : Prompts) :
    ∀ (cs parts : List Str) (tr : List Call),
      runChunkCalls cl P cs = (some parts, tr) →
      parts.length = cs.length ∧
        tr = cs.map (fun c => (P.dailySystem, P.dailyUser c)) := by
  intro cs
  induction cs with
  | nil =>
    intro parts tr h
    rw [runChunkCalls] at h
    injection h with h1 h2
    injection h1 with h1
    subst h1
    subst h2
    exact ⟨rfl, rfl⟩
  | cons c cs ih =>
    intro parts tr h
    simp only [runChunkCalls] at h
    cases hc : cl P.dailySystem (P.dailyUser c) with
    | none => rw [hc] at h; simp at h
    | some r =>
      rw [hc] at h
      cases hr : runChunkCalls cl P cs with
      | mk o tr' =>
        rw [hr] at h
        cases o with
        | none => simp at h
        | some ps =>
          simp only [Option.map_some', Prod.mk.injEq, Option.some.injEq] at h
          obtain ⟨hp, ht⟩ := h
          obtain ⟨h1, h2⟩ := ih ps tr' hr
          constructor
          · rw [← hp]
            simp [h1]
          · rw [← ht, h2]
            simp

/-- C5: a successful daily summarization of a transcript that chunks
into exactly one chunk issues exactly one model call; for a transcript
that chunks into N > 1 chunks it issues exactly N + 1 calls (the N
per-chunk calls plus the one compression call). -/
theorem C5_call_counts (cl ml : LLM) (P : Prompts) (name content res : Str)
    (tr : List Call)
    (h : summarize_transcript_file cl ml P name content = (some res, tr)) :
    ((chunk_textD (load_transcript name content)
        CHUNK_CHAR_LENGTH CHUNK_CHAR_OVERLAP).length = 1 → tr.length = 1) ∧
    (2 ≤ (chunk_textD (load_transcript name content)
        CHUNK_CHAR_LENGTH CHUNK_CHAR_OVERLAP).length →
      tr.length = (chunk_textD (load_transcript name content)
        CHUNK_CHAR_LENGTH CHUNK_CHAR_OVERLAP).length + 1) := by
  simp only [summarize_transcript_file] at h
  cases hch : chunk_textD (load_transcript name content)
      CHUNK_CHAR_LENGTH CHUNK_CHAR_OVERLAP with
  | nil =>
    constructor
    · intro h1; simp at h1
    · intro h1; simp at h1
  | cons c0 cs0 =>
    rw [hch] at h
    rw [if_neg (by simp)] at h
    cases hr : runChunkCalls cl P (c0 :: cs0) with
    | mk o tr' =>
      rw [hr] at h
      cases o with
      | none => dsimp only at h; exact absurd h (by simp)
      | some parts =>
        dsimp only at h
        obtain ⟨hlen, htr⟩ := runChunkCalls_ok cl P (c0 :: cs0) parts tr' hr
        by_cases h1 : parts.length = 1
        · rw [if_pos h1] at h
          injection h with hres ht
          constructor
          · intro _
            rw [← ht, htr]
            simp only [List.length_map]
            rw [← hlen, h1]
          · intro h2
            rw [← hlen] at h2
            omega
        · rw [if_neg h1] at h
          cases hm : ml P.dailySystem
              (P.dailyUser (List.intercalate chunkSep parts)) with
          | none => rw [hm] at h; exact absurd h (by simp)
          | some fin =>
            rw [hm] at h
            injection h with hres ht
            constructor
            · intro h2
              rw [h2] at hlen
              exact absurd hlen h1
            · intro _
              rw [← ht, htr]
              simp

/-- A concrete prompt record for witnesses. -/
def cxPrompts : Prompts where
  dailySystem := "D".toList
  dailyUser := fun c => 'U' :: c
  masterSystem := "M".toList
  masterUser := fun c => 'm' :: c
  openingSystem := "O".toList
  openingUser := fun c => 'o' :: c
  closingSystem := "C".toList
  closingUser := fun c => 'c' :: c

/-- A concrete backend for witnesses: always answers " x\n" (a
response carrying surrounding whitespace). -/
def cxLLM : LLM := fun _ _ => some " x\n".toList

/-- Witness for C5 at a one-chunk transcript: exactly one call was
issued. -/
theorem C5_call_counts_witness :
    summarize_transcript_file cxLLM cxLLM cxPrompts "h.txt".toList "hi".toList =
      (some "x".toList, [(cxPrompts.dailySystem, cxPrompts.dailyUser "hi".toList)]) ∧
    (((chunk_textD (load_transcript "h.txt".toList "hi".toList)
        CHUNK_CHAR_LENGTH CHUNK_CHAR_OVERLAP).length = 1 →
      ([(cxPrompts.dailySystem, cxPrompts.dailyUser "hi".toList)] : List Call).length = 1) ∧
     (2 ≤ (chunk_textD (load_transcript "h.txt".toList "hi".toList)
        CHUNK_CHAR_LENGTH CHUNK_CHAR_OVERLAP).length →
      ([(cxPrompts.dailySystem, cxPrompts.dailyUser "hi".toList)] : List Call).length =
        (chunk_textD (load_transcript "h.txt".toList "hi".toList)
          CHUNK_CHAR_LENGTH CHUNK_CHAR_OVERLAP).length + 1)) :=
  ⟨by decide, C5_call_counts cxLLM cxLLM cxPrompts "h.txt".toList "hi".toList
    "x".toList [(cxPrompts.dailySystem, cxPrompts.dailyUser "hi".toList)] (by decide)⟩

/-- C6 counterexample: the claim says the returned text is the model's
response for the single chunk verbatim.  With the backend answering
" x\n" on the one-chunk transcript "hi", the function returns the
stripped text "x", which differs from the response " x\n". -/
theorem C6_counterexample :
    summarize_transcript_file cxLLM cxLLM cxPrompts "h.txt".toList "hi".toList =
      (some "x".toList, [(cxPrompts.dailySystem, cxPrompts.dailyUser "hi".toList)]) ∧
    chunk_textD (load_transcript "h.txt".toList "hi".toList)
      CHUNK_CHAR_LENGTH CHUNK_CHAR_OVERLAP = ["hi".toList] ∧
    cxLLM cxPrompts.dailySystem (cxPrompts.dailyUser "hi".toList) = some " x\n".toList ∧
    "x".toList ≠ " x\n".toList := by decide

/-- C6 (amended): for a transcript that chunks into exactly one chunk,
a successful summarization returns the model's response for that chunk
with its leading and trailing whitespace stripped, and issues no
compression call (the trace is that single chunk call). -/
theorem C6_single_chunk_stripped (cl ml : LLM) (P : Prompts) (name content res c : Str)
    (tr : List Call)
    (h : summarize_transcript_file cl ml P name content = (some res, tr))
    (hc : chunk_textD (load_transcript name content)
      CHUNK_CHAR_LENGTH CHUNK_CHAR_OVERLAP = [c]) :
    ∃ resp, cl P.dailySystem (P.dailyUser c) = some resp ∧ res = pyStrip resp ∧
      tr = [(P.dailySystem, P.dailyUser c)] := by
  simp only [summarize_transcript_file, hc] at h
  rw [if_neg (by simp)] at h
  cases hcall : cl P.dailySystem (P.dailyUser c) with
  | none =>
    have hrc : runChunkCalls cl P [c] = (none, [(P.dailySystem, P.dailyUser c)]) := by
      simp [runChunkCalls, hcall]
    rw [hrc] at h
    dsimp only at h
    exact absurd h (by simp)
  | some r =>
    have hrc : runChunkCalls cl P [c] =
        (some [pyStrip r], [(P.dailySystem, P.dailyUser c)]) := by
      simp [runChunkCalls, hcall]
    rw [hrc] at h
    dsimp only at h
    rw [if_pos (by simp)] at h
    injection h with h1 h2
    injection h1 with h1
    refine ⟨r, rfl, ?_, h2.symm⟩
    rw [← h1]
    rfl

/-- Witness for the amended C6 at the one-chunk transcript "hi". -/
theorem C6_single_chunk_stripped_witness :
    (summarize_transcript_file cxLLM cxLLM cxPrompts "h.txt".toList "hi".toList =
      (some "x".toList, [(cxPrompts.dailySystem, cxPrompts.dailyUser "hi".toList)]) ∧
     chunk_textD (load_transcript "h.txt".toList "hi".toList)
      CHUNK_CHAR_LENGTH CHUNK_CHAR_OVERLAP = ["hi".toList]) ∧
    (∃ resp, cxLLM cxPrompts.dailySystem (cxPrompts.dailyUser "hi".toList) = some resp ∧
      "x".toList = pyStrip resp ∧
      [(cxPrompts.dailySystem, cxPrompts.dailyUser "hi".toList)] =
        [(cxPrompts.dailySystem, cxPrompts.dailyUser "hi".toList)]) :=
  ⟨⟨by decide, by decide⟩,
    C6_single_chunk_stripped cxLLM cxLLM cxPrompts "h.txt".toList "hi".toList
      "x".toList "hi".toList [(cxPrompts.dailySystem, cxPrompts.dailyUser "hi".toList)]
      (by decide) (by decide)⟩

-- ---------------------------------------------------------------------
-- C9: opening/closing failures degrade to empty paragraphs
-- ---------------------------------------------------------------------

/-- C9: if the opening-paragraph call fails, the report document is
still produced, with the opening replaced by the empty string, and the
failure is reported to the operator; symmetrically for the
closing-paragraph call.  (finishReport is steps opening/closing/report
shared by both main() functions, entered whenever master synthesis
succeeded.) -/
theorem C9_open_close_degrade (llm : LLM) (P : Prompts) (fs : FS) (m : Str) :
    ((generate_opening_paragraph llm P m).1 = none →
      (finishReport llm P fs m).1 =
        { fs with reports :=
            fs.reports ++ [(m, [], ((generate_closing_paragraph llm P m).1).getD [])] } ∧
      Ev.opFail openingStage ∈ (finishReport llm P fs m).2 ∧
      Ev.writeReport ∈ (finishReport llm P fs m).2) ∧
    ((generate_closing_paragraph llm P m).1 = none →
      (finishReport llm P fs m).1 =
        { fs with reports :=
            fs.reports ++ [(m, ((generate_opening_paragraph llm P m).1).getD [], [])] } ∧
      Ev.opFail closingStage ∈ (finishReport llm P fs m).2 ∧
      Ev.writeReport ∈ (finishReport llm P fs m).2) := by
  constructor
  · intro hO
    refine ⟨?_, ?_, ?_⟩
    · simp [finishReport, hO]
    · simp [finishReport, hO]
    · simp [finishReport, hO]
  · intro hC
    refine ⟨?_, ?_, ?_⟩
    · simp [finishReport, hC]
    · simp [finishReport, hC]
    · simp [finishReport, hC]

/-- An empty store for witnesses. -/
def cxFS0 : FS := ⟨true, [], [], [], none, []⟩

/-- A backend failing exactly the opening-paragraph calls. -/
def cxFailOpen : LLM := fun s _ =>
  if s = cxPrompts.openingSystem then none else some " x\n".toList

/-- A backend failing exactly the closing-paragraph calls. -/
def cxFailClose : LLM := fun s _ =>
  if s = cxPrompts.closingSystem then none else some " x\n".toList

/-- Witness for C9: a failing opening call and a failing closing call,
each at a concrete report body. -/
theorem C9_open_close_degrade_witness :
    ((generate_opening_paragraph cxFailOpen cxPrompts "r".toList).1 = none ∧
      ((finishReport cxFailOpen cxPrompts cxFS0 "r".toList).1 =
        { cxFS0 with reports := cxFS0.reports ++ [("r".toList, [],
            ((generate_closing_paragraph cxFailOpen cxPrompts "r".toList).1).getD [])] } ∧
      Ev.opFail openingStage ∈ (finishReport cxFailOpen cxPrompts cxFS0 "r".toList).2 ∧
      Ev.writeReport ∈ (finishReport cxFailOpen cxPrompts cxFS0 "r".toList).2)) ∧
    ((generate_closing_paragraph cxFailClose cxPrompts "r".toList).1 = none ∧
      ((finishReport cxFailClose cxPrompts cxFS0 "r".toList).1 =
        { cxFS0 with reports := cxFS0.reports ++ [("r".toList,
            ((generate_opening_paragraph cxFailClose cxPrompts "r".toList).1).getD [], [])] } ∧
      Ev.opFail closingStage ∈ (finishReport cxFailClose cxPrompts cxFS0 "r".toList).2 ∧
      Ev.writeReport ∈ (finishReport cxFailClose cxPrompts cxFS0 "r".toList).2)) :=
  ⟨⟨by decide, (C9_open_close_degrade cxFailOpen cxPrompts cxFS0 "r".toList).1 (by decide)⟩,
   ⟨by decide, (C9_open_close_degrade cxFailClose cxPrompts cxFS0 "r".toList).2 (by decide)⟩⟩

-- ---------------------------------------------------------------------
-- C10: the normalization step rebuilds the processed partition
-- ---------------------------------------------------------------------

theorem isPrefixOf_append_self {α} [BEq α] [LawfulBEq α] :
    ∀ (l r : List α), List.isPrefixOf l (l ++ r) = true := by
  intro l
  induction l with
  | nil => intro r; simp [List.isPrefixOf]
  | cons a l ih => intro r; simp [List.isPrefixOf, ih]

theorem endsWith_append_self (s t : Str) : endsWithStr t (s ++ t) = true := by
  simp [endsWithStr, List.isSuffixOf, List.reverse_append, isPrefixOf_append_self]

theorem fsWrite_fresh (part : List (Str × Str)) (name c : Str)
    (h : name ∉ part.map (fun e => e.1)) :
    fsWrite part name c = part ++ [(name, c)] := by
  rw [fsWrite, if_neg]
  intro hany
  obtain ⟨e, he, heq⟩ := List.any_eq_true.mp hany
  exact h (List.mem_map.mpr ⟨e, he, of_decide_eq_true heq⟩)

theorem processStems_no_del (raws : List RawFile) :
    ∀ (stems : List Str) (fs : FS) (nm : Str),
      Ev.delProcessed nm ∉ (processStems raws fs stems).2.2 := by
  intro stems
  induction stems with
  | nil => intro fs nm; simp [processStems]
  | cons stem rest ih =>
    intro fs nm
    simp only [processStems]
    by_cases hsec : stemSections raws stem = []
    · rw [if_pos hsec]
      simp only [List.mem_append, not_or]
      refine ⟨?_, ih fs nm⟩
      intro hmem
      obtain ⟨f, _, hf⟩ := List.mem_map.mp hmem
      exact Ev.noConfusion hf
    · rw [if_neg hsec]
      simp only [List.mem_append, List.mem_cons, not_or]
      refine ⟨?_, ?_, ?_⟩
      · intro hmem
        obtain ⟨f, _, hf⟩ := List.mem_map.mp hmem
        exact Ev.noConfusion hf
      · intro hf
        exact Ev.noConfusion hf
      · exact ih _ nm

/-- Normalization events are raw reads, deletions and processed
writes only. -/
def normEv : Ev → Prop
  | Ev.readRaw _ => True
  | Ev.delProcessed _ => True
  | Ev.writeProcessed _ => True
  | _ => False

theorem processStems_events_norm (raws : List RawFile) :
    ∀ (stems : List Str) (fs : FS), ∀ e ∈ (processStems raws fs stems).2.2, normEv e := by
  intro stems
  induction stems with
  | nil => intro fs e he; simp [processStems] at he
  | cons stem rest ih =>
    intro fs e he
    simp only [processStems] at he
    by_cases hsec : stemSections raws stem = []
    · rw [if_pos hsec] at he
      rcases List.mem_append.mp he with h | h
      · obtain ⟨f, _, hf⟩ := List.mem_map.mp h
        rw [← hf]; trivial
      · exact ih fs e h
    · rw [if_neg hsec] at he
      rcases List.mem_append.mp he with h | h
      · obtain ⟨f, _, hf⟩ := List.mem_map.mp h
        rw [← hf]; trivial
      · rcases List.mem_cons.mp h with h | h
        · rw [h]; trivial
        · exact ih _ e h

theorem processStems_spec (raws : List RawFile) :
    ∀ (stems : List Str) (fs : FS),
      stems.Nodup →
      (∀ s ∈ stems, (s ++ txtExt) ∉ fs.processed.map (fun e => e.1)) →
      (processStems raws fs stems).1.processed =
        fs.processed ++ (stems.filter (fun s => !(stemSections raws s).isEmpty)).map
          (fun s => (s ++ txtExt, stemContent raws s)) ∧
      (processStems raws fs stems).2.1 =
        (stems.filter (fun s => !(stemSections raws s).isEmpty)).map
          (fun s => s ++ txtExt) ∧
      (processStems raws fs stems).1.transcriptsDirExists = fs.transcriptsDirExists ∧
      (processStems raws fs stems).1.transcripts = fs.transcripts ∧
      (processStems raws fs stems).1.daily = fs.daily ∧
      (processStems raws fs stems).1.master = fs.master ∧
      (processStems raws fs stems).1.reports = fs.reports := by
  intro stems
  induction stems with
  | nil => intro fs _ _; simp [processStems]
  | cons stem rest ih =>
    intro fs hnd hfresh
    rcases List.nodup_cons.mp hnd with ⟨hstem, hrest⟩
    simp only [processStems]
    by_cases hsec : stemSections raws stem = []
    · rw [if_pos hsec]
      have hfilter : (stem :: rest).filter (fun s => !(stemSections raws s).isEmpty) =
          rest.filter (fun s => !(stemSections raws s).isEmpty) := by
        rw [List.filter_cons]
        simp [hsec]
      obtain ⟨h1, h2, h3, h4, h5, h6, h7⟩ := ih fs hrest (fun s hs =>
        hfresh s (List.mem_cons_of_mem _ hs))
      exact ⟨by rw [hfilter]; exact h1, by rw [hfilter]; exact h2, h3, h4, h5, h6, h7⟩
    · rw [if_neg hsec]
      have hfw : fsWrite fs.processed (stem ++ txtExt) (stemContent raws stem) =
          fs.processed ++ [(stem ++ txtExt, stemContent raws stem)] :=
        fsWrite_fresh _ _ _ (hfresh stem (List.mem_cons_self _ _))
      have hfresh' : ∀ s ∈ rest, (s ++ txtExt) ∉
          (fs.processed ++ [(stem ++ txtExt, stemContent raws stem)]).map
            (fun e => e.1) := by
        intro s hs
        simp only [List.map_append, List.mem_append, not_or]
        refine ⟨hfresh s (List.mem_cons_of_mem _ hs), ?_⟩
        simp only [List.map_cons, List.map_nil, List.mem_singleton]
        intro heq
        have hse : s = stem := List.append_cancel_right heq
        rw [hse] at hs
        exact hstem hs
      obtain ⟨h1, h2, h3, h4, h5, h6, h7⟩ := ih
        { fs with processed :=
            fsWrite fs.processed (stem ++ txtExt) (stemContent raws stem) }
        hrest (by simpa [hfw] using hfresh')
      have hfilter : (stem :: rest).filter (fun s => !(stemSections raws s).isEmpty) =
          stem :: rest.filter (fun s => !(stemSections raws s).isEmpty) := by
        rw [List.filter_cons]
        simp [hsec]
      refine ⟨?_, ?_, h3, h4, h5, h6, h7⟩
      · rw [h1]
        simp only [hfw, hfilter, List.map_cons]
        rw [List.append_assoc]
        rfl
      · rw [h2, hfilter, List.map_cons]

/-- C10 counterexample: the claim says every run of the normalization
step first deletes all .txt files of the processed partition, leaving
exactly one .txt per yielding raw stem independent of prior contents.
When no raw .srt/.vtt inputs exist the step returns early without
deleting anything: a stale old.txt survives although there are no raw
stems at all. -/
theorem C10_counterexample :
    process_transcripts ⟨true, [], [("old.txt".toList, "x".toList)], [], none, []⟩ =
      (⟨true, [], [("old.txt".toList, "x".toList)], [], none, []⟩, [], []) ∧
    fsLookup (FS.processed ⟨true, [], [("old.txt".toList, "x".toList)], [], none, []⟩)
      "old.txt".toList = some "x".toList ∧
    FS.transcripts ⟨true, [], [("old.txt".toList, "x".toList)], [], none, []⟩ = [] ∧
    endsWithStr txtExt "old.txt".toList = true := by decide

/-- C10 (amended): every run of the normalization step in which the
transcripts directory exists and at least one raw .srt/.vtt input is
present first deletes all .txt files of the processed partition before
writing any new ones; afterwards the partition holds the prior
non-.txt entries plus exactly one .txt file per raw-input stem that
yielded non-empty text (independent of the partition's prior .txt
contents), and the daily/master/report partitions are untouched. -/
theorem C10_rebuild (fs : FS) (hdir : fs.transcriptsDirExists = true)
    (hraw : normRaws fs ≠ []) :
    (process_transcripts fs).1.processed =
      fs.processed.filter (fun e => !(endsWithStr txtExt e.1)) ++
        (goodStems fs).map (fun s => (s ++ txtExt, stemContent (normRaws fs) s)) ∧
    (process_transcripts fs).2.1 = (goodStems fs).map (fun s => s ++ txtExt) ∧
    (∃ rest, (process_transcripts fs).2.2 =
        ((fs.processed.map (fun e => e.1)).filter (endsWithStr txtExt)).map
          Ev.delProcessed ++ rest ∧
        ∀ nm, Ev.delProcessed nm ∉ rest) ∧
    (process_transcripts fs).1.daily = fs.daily ∧
    (process_transcripts fs).1.master = fs.master ∧
    (process_transcripts fs).1.reports = fs.reports := by
  have hnd : (normStems fs).Nodup :=
    nodup_sortBy _ _ (List.nodup_dedup _)
  have hfresh : ∀ s ∈ normStems fs, (s ++ txtExt) ∉
      (fs.processed.filter (fun e => !(endsWithStr txtExt e.1))).map (fun e => e.1) := by
    intro s _ hmem
    obtain ⟨e, he, heq⟩ := List.mem_map.mp hmem
    have hfil := List.of_mem_filter he
    rw [heq, endsWith_append_self] at hfil
    simp at hfil
  obtain ⟨h1, h2, h3, h4, h5, h6, h7⟩ := processStems_spec (normRaws fs) (normStems fs)
    { fs with processed := fs.processed.filter (fun e => !(endsWithStr txtExt e.1)) }
    hnd hfresh
  have hunfold : process_transcripts fs =
      ((processStems (normRaws fs)
          { fs with processed := fs.processed.filter (fun e => !(endsWithStr txtExt e.1)) }
          (normStems fs)).1,
        (processStems (normRaws fs)
          { fs with processed := fs.processed.filter (fun e => !(endsWithStr txtExt e.1)) }
          (normStems fs)).2.1,
        ((fs.processed.map (fun e => e.1)).filter (endsWithStr txtExt)).map
            Ev.delProcessed ++
          (processStems (normRaws fs)
            { fs with processed := fs.processed.filter (fun e => !(endsWithStr txtExt e.1)) }
            (normStems fs)).2.2) := by
    rw [process_transcripts, hdir]
    simp only [not_true, if_false]
    rw [if_neg hraw]
  rw [hunfold]
  refine ⟨?_, h2, ⟨_, rfl, ?_⟩, h5, h6, h7⟩
  · rw [h1]; rfl
  · intro nm
    exact processStems_no_del (normRaws fs) (normStems fs) _ nm

/-- A store with one raw transcript and one stale processed file, for
the C10 witness. -/
def c10FS : FS :=
  ⟨true, [⟨"Mon.srt".toList, "1\nhello".toList⟩],
    [("old.txt".toList, "x".toList)], [], none, []⟩

/-- Witness for the amended C10 at a store with one raw input and a
stale .txt file. -/
theorem C10_rebuild_witness :
    (c10FS.transcriptsDirExists = true ∧ normRaws c10FS ≠ []) ∧
    ((process_transcripts c10FS).1.processed =
      c10FS.processed.filter (fun e => !(endsWithStr txtExt e.1)) ++
        (goodStems c10FS).map (fun s => (s ++ txtExt, stemContent (normRaws c10FS) s)) ∧
    (process_transcripts c10FS).2.1 = (goodStems c10FS).map (fun s => s ++ txtExt) ∧
    (∃ rest, (process_transcripts c10FS).2.2 =
        ((c10FS.processed.map (fun e => e.1)).filter (endsWithStr txtExt)).map
          Ev.delProcessed ++ rest ∧
        ∀ nm, Ev.delProcessed nm ∉ rest) ∧
    (process_transcripts c10FS).1.daily = c10FS.daily ∧
    (process_transcripts c10FS).1.master = c10FS.master ∧
    (process_transcripts c10FS).1.reports = c10FS.reports) :=
  ⟨⟨by decide, by decide⟩, C10_rebuild c10FS (by decide) (by decide)⟩

-- ---------------------------------------------------------------------
-- C2: credential checks versus document work
-- ---------------------------------------------------------------------

theorem processStems_preserves (raws : List RawFile) :
    ∀ (stems : List Str) (fs : FS),
      (processStems raws fs stems).1.daily = fs.daily ∧
      (processStems raws fs stems).1.master = fs.master ∧
      (processStems raws fs stems).1.reports = fs.reports := by
  intro stems
  induction stems with
  | nil => intro fs; exact ⟨rfl, rfl, rfl⟩
  | cons stem rest ih =>
    intro fs
    simp only [processStems]
    by_cases hsec : stemSections raws stem = []
    · rw [if_pos hsec]
      exact ih fs
    · rw [if_neg hsec]
      exact ih _

/-- Every event of the normalization step is a raw read, a processed
delete or a processed write; the daily, master and report partitions
are untouched by it. -/
theorem process_transcripts_norm (fs : FS) :
    (∀ e ∈ (process_transcripts fs).2.2, normEv e) ∧
    (process_transcripts fs).1.daily = fs.daily ∧
    (process_transcripts fs).1.master = fs.master ∧
    (process_transcripts fs).1.reports = fs.reports := by
  by_cases hdir : fs.transcriptsDirExists
  · by_cases hraw : normRaws fs = []
    · rw [process_transcripts, if_neg (by simp [hdir]), if_pos hraw]
      exact ⟨by intro e he; simp at he, rfl, rfl, rfl⟩
    · rw [process_transcripts, if_neg (by simp [hdir]), if_neg hraw]
      refine ⟨?_, ?_, ?_, ?_⟩
      · intro e he
        rcases List.mem_append.mp he with h | h
        · obtain ⟨nm, _, hnm⟩ := List.mem_map.mp h
          rw [← hnm]; trivial
        · exact processStems_events_norm _ _ _ e h
      all_goals
        obtain ⟨hd, hm, hr⟩ := processStems_preserves (normRaws fs) (normStems fs)
          { fs with processed := fs.processed.filter (fun e => !(endsWithStr txtExt e.1)) }
        first
        | exact hd
        | exact hm
        | exact hr
  · rw [process_transcripts, if_pos hdir]
    exact ⟨by intro e he; simp at he, rfl, rfl, rfl⟩

/-- The enhanced environment of the C2 counterexample: one raw
transcript, no OPENAI_API_KEY. -/
def c2Env : EnhEnv := ⟨c10FS, false, cxLLM, cxPrompts⟩

/-- C2 counterexample: the claim says a missing credential fails the
pipeline before any document is read, deleted, or written.  In
summarize_enhanced.py the credential check (load_llm) runs only after
process_transcripts: with one raw transcript and no key, the run does
end in the configuration error, but the trace already contains the raw
read, the deletion of the stale processed file and the write of the
new processed transcript. -/
theorem C2_counterexample :
    (enhanced_main c2Env).2.2 = Outcome.configError ∧
    Ev.readRaw "Mon.srt".toList ∈ (enhanced_main c2Env).2.1 ∧
    Ev.delProcessed "old.txt".toList ∈ (enhanced_main c2Env).2.1 ∧
    Ev.writeProcessed ("Mon".toList ++ txtExt) ∈ (enhanced_main c2Env).2.1 := by decide

/-- C2 (amended): in summarize_resume.py a missing credential (either
backend) aborts the run at pipeline start with the configuration
error, before any document event and with the store untouched.  In
summarize_enhanced.py a missing credential aborts the run before any
summarization work, daily/master/report access or model call - but
only after the normalization step, which may read raw transcripts and
delete and rewrite processed transcripts. -/
theorem C2_credential_check (envR : ResEnv) (envE : EnhEnv) :
    ((envR.hasCereKey = false ∨ envR.hasOaiKey = false) →
      resume_main envR = (envR.fs, [], Outcome.configError)) ∧
    (envE.hasKey = false →
      ((enhanced_main envE).2.2 = Outcome.configError ∨
        (enhanced_main envE).2.2 = Outcome.earlyNoTranscripts) ∧
      (∀ e ∈ (enhanced_main envE).2.1, normEv e) ∧
      (enhanced_main envE).1.daily = envE.fs.daily ∧
      (enhanced_main envE).1.master = envE.fs.master ∧
      (enhanced_main envE).1.reports = envE.fs.reports) := by
  constructor
  · intro hkeys
    rcases hkeys with h | h
    · rw [resume_main, if_pos (by rw [h]; simp)]
    · by_cases hc : envR.hasCereKey
      · rw [resume_main, if_neg (by rw [hc]; simp), if_pos (by rw [h]; simp)]
      · rw [resume_main, if_pos hc]
  · intro hkey
    obtain ⟨hnorm, hd, hm, hr⟩ := process_transcripts_norm envE.fs
    by_cases hp : (process_transcripts envE.fs).2.1 = []
    · rw [enhanced_main, if_pos hp]
      exact ⟨Or.inr rfl, hnorm, hd, hm, hr⟩
    · rw [enhanced_main, if_neg hp, if_pos (by rw [hkey]; simp)]
      exact ⟨Or.inl rfl, hnorm, hd, hm, hr⟩

/-- The resume environment of the C2 witness: CEREBRAS_API_KEY
missing. -/
def c2EnvR : ResEnv :=
  ⟨cxFS0, false, true, cxLLM, cxLLM, cxPrompts, ["Tuesday".toList], false⟩

/-- Witness for the amended C2 at the two concrete environments. -/
theorem C2_credential_check_witness :
    (c2EnvR.hasCereKey = false ∨ c2EnvR.hasOaiKey = false) ∧
    c2Env.hasKey = false ∧
    resume_main c2EnvR = (c2EnvR.fs, [], Outcome.configError) ∧
    (((enhanced_main c2Env).2.2 = Outcome.configError ∨
        (enhanced_main c2Env).2.2 = Outcome.earlyNoTranscripts) ∧
      (∀ e ∈ (enhanced_main c2Env).2.1, normEv e) ∧
      (enhanced_main c2Env).1.daily = c2Env.fs.daily ∧
      (enhanced_main c2Env).1.master = c2Env.fs.master ∧
      (enhanced_main c2Env).1.reports = c2Env.fs.reports) :=
  ⟨Or.inl rfl, rfl,
    (C2_credential_check c2EnvR c2Env).1 (Or.inl rfl),
    (C2_credential_check c2EnvR c2Env).2 rfl⟩

-- ---------------------------------------------------------------------
-- Frame lemmas for the daily-summary partition
-- ---------------------------------------------------------------------

theorem fsLookup_map_write (name c nm : Str) (h : nm ≠ name) :
    ∀ part : List (Str × Str),
      fsLookup (part.map (fun e => if e.1 = name then (name, c) else e)) nm =
        fsLookup part nm := by
  intro part
  induction part with
  | nil => rfl
  | cons e es ih =>
    simp only [List.map_cons]
    by_cases hnm : e.1 = nm
    · have hne : ¬ (e.1 = name) := by
        rw [hnm]
        exact h
      rw [if_neg hne]
      rw [fsLookup, fsLookup, List.find?_cons_of_pos _ (by simpa using hnm),
        List.find?_cons_of_pos _ (by simpa using hnm)]
    · have hval : ¬ ((if e.1 = name then (name, c) else e)).1 = nm := by
        by_cases he : e.1 = name
        · rw [if_pos he]
          exact fun h0 => h h0.symm
        · rw [if_neg he]
          exact hnm
      rw [fsLookup, fsLookup, List.find?_cons_of_neg _ (by simpa using hval),
        List.find?_cons_of_neg _ (by simpa using hnm)]
      exact ih

theorem fsLookup_append_write (name c nm : Str) (h : nm ≠ name) :
    ∀ part : List (Str × Str),
      fsLookup (part ++ [(name, c)]) nm = fsLookup part nm := by
  intro part
  induction part with
  | nil =>
    simp only [List.nil_append, fsLookup]
    rw [List.find?_cons_of_neg _ (by simpa using fun h0 => h h0.symm)]
  | cons e es ih =>
    simp only [List.cons_append, fsLookup]
    by_cases hnm : e.1 = nm
    · rw [List.find?_cons_of_pos _ (by simpa using hnm),
        List.find?_cons_of_pos _ (by simpa using hnm)]
    · rw [List.find?_cons_of_neg _ (by simpa using hnm),
        List.find?_cons_of_neg _ (by simpa using hnm)]
      exact ih

theorem fsLookup_write_other (name c nm : Str) (h : nm ≠ name) (part : List (Str × Str)) :
    fsLookup (fsWrite part name c) nm = fsLookup part nm := by
  rw [fsWrite]
  by_cases hany : part.any (fun e => e.1 = name)
  · rw [if_pos hany]
    exact fsLookup_map_write name c nm h part
  · rw [if_neg hany]
    exact fsLookup_append_write name c nm h part

theorem find_transcript_eq (fs1 fs2 : FS) (hp : fs1.processed = fs2.processed)
    (ht : fs1.transcripts = fs2.transcripts) (d : Str) :
    find_transcript_for_day fs1 d = find_transcript_for_day fs2 d := by
  rw [find_transcript_for_day, find_transcript_for_day, hp, ht]

theorem resumeStep1_preserves (cl ol : LLM) (P : Prompts) :
    ∀ (days : List Str) (fs : FS),
      (resumeStep1 cl ol P fs days).1.processed = fs.processed ∧
      (resumeStep1 cl ol P fs days).1.transcripts = fs.transcripts ∧
      (resumeStep1 cl ol P fs days).1.master = fs.master ∧
      (resumeStep1 cl ol P fs days).1.reports = fs.reports ∧
      (resumeStep1 cl ol P fs days).1.transcriptsDirExists = fs.transcriptsDirExists := by
  intro days
  induction days with
  | nil => intro fs; exact ⟨rfl, rfl, rfl, rfl, rfl⟩
  | cons d ds ih =>
    intro fs
    simp only [resumeStep1]
    cases hf : find_transcript_for_day fs d with
    | none =>
      dsimp only
      exact ih fs
    | some f =>
      dsimp only
      cases hs : (summarize_transcript_file cl ol P f.1 f.2).1 with
      | none =>
        dsimp only
        exact ih fs
      | some s =>
        dsimp only
        by_cases hse : s = []
        · rw [if_pos hse]
          exact ih fs
        · rw [if_neg hse]
          exact ih _

theorem resumeStep1_frame (cl ol : LLM) (P : Prompts) :
    ∀ (days : List Str) (fs : FS) (nm : Str),
      nm ∉ (resumeStep1 cl ol P fs days).2.1 →
      fsLookup (resumeStep1 cl ol P fs days).1.daily nm = fsLookup fs.daily nm := by
  intro days
  induction days with
  | nil => intro fs nm _; rfl
  | cons d ds ih =>
    intro fs nm hnm
    simp only [resumeStep1] at hnm ⊢
    cases hf : find_transcript_for_day fs d with
    | none =>
      rw [hf] at hnm
      dsimp only at hnm ⊢
      exact ih fs nm hnm
    | some f =>
      rw [hf] at hnm
      dsimp only at hnm ⊢
      cases hs : (summarize_transcript_file cl ol P f.1 f.2).1 with
      | none =>
        rw [hs] at hnm
        dsimp only at hnm ⊢
        exact ih fs nm hnm
      | some s =>
        rw [hs] at hnm
        dsimp only at hnm ⊢
        by_cases hse : s = []
        · rw [if_pos hse] at hnm ⊢
          exact ih fs nm hnm
        · rw [if_neg hse] at hnm ⊢
          simp only [List.mem_cons, not_or] at hnm
          obtain ⟨hne, hnm'⟩ := hnm
          rw [ih _ nm hnm']
          exact fsLookup_write_other _ _ _ hne _

theorem resumeStep1_written (cl ol : LLM) (P : Prompts) :
    ∀ (days : List Str) (fs : FS), ∀ nm ∈ (resumeStep1 cl ol P fs days).2.1,
      ∃ d ∈ days, ∃ pr, find_transcript_for_day fs d = some pr ∧
        nm = pyStem pr.1 ++ summarySfx := by
  intro days
  induction days with
  | nil => intro fs nm hnm; simp [resumeStep1] at hnm
  | cons d ds ih =>
    intro fs nm hnm
    simp only [resumeStep1] at hnm
    cases hf : find_transcript_for_day fs d with
    | none =>
      rw [hf] at hnm
      dsimp only at hnm
      obtain ⟨d', hd', pr, hpr, hnm'⟩ := ih fs nm hnm
      exact ⟨d', List.mem_cons_of_mem _ hd', pr, hpr, hnm'⟩
    | some f =>
      rw [hf] at hnm
      dsimp only at hnm
      cases hs : (summarize_transcript_file cl ol P f.1 f.2).1 with
      | none =>
        rw [hs] at hnm
        dsimp only at hnm
        obtain ⟨d', hd', pr, hpr, hnm'⟩ := ih fs nm hnm
        exact ⟨d', List.mem_cons_of_mem _ hd', pr, hpr, hnm'⟩
      | some s =>
        rw [hs] at hnm
        dsimp only at hnm
        by_cases hse : s = []
        · rw [if_pos hse] at hnm
          obtain ⟨d', hd', pr, hpr, hnm'⟩ := ih fs nm hnm
          exact ⟨d', List.mem_cons_of_mem _ hd', pr, hpr, hnm'⟩
        · rw [if_neg hse] at hnm
          rcases List.mem_cons.mp hnm with h | h
          · exact ⟨d, List.mem_cons_self _ _, f, hf, h⟩
          · obtain ⟨d', hd', pr, hpr, hnm'⟩ := ih _ nm h
            refine ⟨d', List.mem_cons_of_mem _ hd', pr, ?_, hnm'⟩
            rw [← hpr]
            exact (find_transcript_eq _ _ rfl rfl d').symm

theorem create_master_events (llm : LLM) (P : Prompts) (files : List (Str × Str)) :
    (create_master_summary llm P files).2 =
      files.map (fun f => Ev.readDaily f.1) ++
        [Ev.llm P.masterSystem (P.masterUser (masterCombined files))] := by
  rw [create_master_summary]
  cases llm P.masterSystem (P.masterUser (masterCombined files)) with
  | none => rfl
  | some m => rfl

theorem readDaily_mem_create_master (llm : LLM) (P : Prompts)
    (files : List (Str × Str)) (nm : Str) :
    Ev.readDaily nm ∈ (create_master_summary llm P files).2 ↔
      nm ∈ files.map (fun f => f.1) := by
  rw [create_master_events]
  simp

theorem resumeStep1_no_readDaily (cl ol : LLM) (P : Prompts) :
    ∀ (days : List Str) (fs : FS) (nm : Str),
      Ev.readDaily nm ∉ (resumeStep1 cl ol P fs days).2.2 := by
  intro days
  induction days with
  | nil => intro fs nm; simp [resumeStep1]
  | cons d ds ih =>
    intro fs nm
    simp only [resumeStep1]
    cases hf : find_transcript_for_day fs d with
    | none =>
      dsimp only
      exact ih fs nm
    | some f =>
      dsimp only
      cases hs : (summarize_transcript_file cl ol P f.1 f.2).1 with
      | none =>
        dsimp only
        intro hmem
        rcases List.mem_append.mp hmem with h | h
        · rcases List.mem_append.mp h with h2 | h2
          · obtain ⟨cc, _, hcc⟩ := List.mem_map.mp h2
            exact Ev.noConfusion hcc
          · exact Ev.noConfusion (List.mem_singleton.mp h2)
        · exact ih fs nm h
      | some s =>
        dsimp only
        by_cases hse : s = []
        · rw [if_pos hse]
          intro hmem
          rcases List.mem_append.mp hmem with h | h
          · obtain ⟨cc, _, hcc⟩ := List.mem_map.mp h
            exact Ev.noConfusion hcc
          · exact ih fs nm h
        · rw [if_neg hse]
          intro hmem
          rcases List.mem_append.mp hmem with h | h
          · rcases List.mem_append.mp h with h2 | h2
            · obtain ⟨cc, _, hcc⟩ := List.mem_map.mp h2
              exact Ev.noConfusion hcc
            · exact Ev.noConfusion (List.mem_singleton.mp h2)
          · exact ih _ nm h

theorem finishReport_no_readDaily (llm : LLM) (P : Prompts) (fs : FS) (m nm : Str) :
    Ev.readDaily nm ∉ (finishReport llm P fs m).2 := by
  simp only [finishReport]
  cases (generate_opening_paragraph llm P m).1 with
  | none =>
    cases (generate_closing_paragraph llm P m).1 with
    | none => simp
    | some c => simp
  | some o =>
    cases (generate_closing_paragraph llm P m).1 with
    | none => simp
    | some c => simp

theorem finishReport_daily (llm : LLM) (P : Prompts) (fs : FS) (m : Str) :
    (finishReport llm P fs m).1.daily = fs.daily := rfl

theorem mem_dailyGlobNames (fs : FS) (nm : Str) :
    nm ∈ dailyGlobNames fs ↔
      (endsWithStr summarySfx nm = true ∧ ∃ e ∈ fs.daily, e.1 = nm) := by
  rw [dailyGlobNames, sortStr, mem_sortBy, List.mem_filter]
  simp only [List.mem_map]
  tauto

theorem map_fst_name_pairs (g : Str → Str) (l : List Str) :
    (l.map (fun nm => (nm, g nm))).map (fun f => f.1) = l := by
  induction l with
  | nil => rfl
  | cons x xs ih => simp only [List.map_cons, ih]

/-- C7: resuming with a chosen subset of day identities writes only
those days' daily summary files (every daily summary file not written
by the run is byte-identical afterwards), and the subsequent master
synthesis reads exactly the complete set of daily summary files
present in the store after the map step, consuming their current
contents. -/
theorem C7_resume_frame (envR : ResEnv) (fs1 : FS) (written : List Str) (e1 : List Ev)
    (fs' : FS) (evs : List Ev) (out : Outcome)
    (hck : envR.hasCereKey = true) (hok : envR.hasOaiKey = true)
    (hskip : envR.skipDaily = false) (hdays : envR.days ≠ [])
    (hstep : resumeStep1 envR.cere envR.oai envR.P envR.fs envR.days = (fs1, written, e1))
    (hmain : resume_main envR = (fs', evs, out)) :
    (∀ nm, nm ∉ written → fsLookup fs'.daily nm = fsLookup envR.fs.daily nm) ∧
    (∀ nm ∈ written, ∃ d ∈ envR.days, ∃ pr,
      find_transcript_for_day envR.fs d = some pr ∧ nm = pyStem pr.1 ++ summarySfx) ∧
    (dailyGlobNames fs1 ≠ [] → ∀ nm,
      (Ev.readDaily nm ∈ evs ↔
        (endsWithStr summarySfx nm = true ∧ ∃ e ∈ fs1.daily, e.1 = nm))) ∧
    (dailyGlobNames fs1 ≠ [] →
      Ev.llm envR.P.masterSystem (envR.P.masterUser (masterCombined
        ((dailyGlobNames fs1).map
          (fun nm => (nm, (fsLookup fs1.daily nm).getD []))))) ∈ evs) := by
  have hframe : ∀ nm, nm ∉ written → fsLookup fs1.daily nm = fsLookup envR.fs.daily nm := by
    intro nm hnm
    have hh := resumeStep1_frame envR.cere envR.oai envR.P envR.days envR.fs nm
      (by rw [hstep]; exact hnm)
    rw [hstep] at hh
    exact hh
  have hwr : ∀ nm ∈ written, ∃ d ∈ envR.days, ∃ pr,
      find_transcript_for_day envR.fs d = some pr ∧ nm = pyStem pr.1 ++ summarySfx := by
    intro nm hnm
    have hh := resumeStep1_written envR.cere envR.oai envR.P envR.days envR.fs nm
      (by rw [hstep]; exact hnm)
    exact hh
  have hnord : ∀ nm, Ev.readDaily nm ∉ e1 := by
    intro nm
    have hh := resumeStep1_no_readDaily envR.cere envR.oai envR.P envR.days envR.fs nm
    rw [hstep] at hh
    exact hh
  have hcond : (!envR.skipDaily && !envR.days.isEmpty) = true := by
    rw [hskip]
    simp only [Bool.not_false, Bool.true_and, Bool.not_eq_true']
    rw [← Bool.not_eq_true]
    intro hemp
    exact hdays (List.isEmpty_iff.mp hemp)
  simp only [resume_main] at hmain
  rw [if_neg (by simp [hck]), if_neg (by simp [hok]), if_pos hcond, hstep] at hmain
  dsimp only at hmain
  by_cases hng : dailyGlobNames fs1 = []
  · rw [if_pos hng] at hmain
    injection hmain with hfs hrest
    injection hrest with hevs hout
    refine ⟨?_, hwr, ?_, ?_⟩
    · intro nm hnm
      rw [← hfs]
      exact hframe nm hnm
    · intro hg
      exact absurd hng hg
    · intro hg
      exact absurd hng hg
  · rw [if_neg hng] at hmain
    cases hcm : (create_master_summary envR.oai envR.P
        ((dailyGlobNames fs1).map (fun nm => (nm, (fsLookup fs1.daily nm).getD [])))).1 with
    | none =>
      rw [hcm] at hmain
      dsimp only at hmain
      injection hmain with hfs hrest
      injection hrest with hevs hout
      have hmemcm : ∀ nm, Ev.readDaily nm ∈ (create_master_summary envR.oai envR.P
          ((dailyGlobNames fs1).map (fun nm => (nm, (fsLookup fs1.daily nm).getD [])))).2 ↔
          nm ∈ dailyGlobNames fs1 := by
        intro nm
        rw [readDaily_mem_create_master, map_fst_name_pairs]
      refine ⟨?_, hwr, ?_, ?_⟩
      · intro nm hnm
        rw [← hfs]
        exact hframe nm hnm
      · intro _ nm
        rw [← hevs]
        constructor
        · intro hmem
          rcases List.mem_append.mp hmem with h | h
          · rcases List.mem_append.mp h with h2 | h2
            · exact absurd h2 (hnord nm)
            · exact (mem_dailyGlobNames fs1 nm).mp ((hmemcm nm).mp h2)
          · exact absurd (List.mem_singleton.mp h) (by intro h0; exact Ev.noConfusion h0)
        · intro hprop
          have : nm ∈ dailyGlobNames fs1 := (mem_dailyGlobNames fs1 nm).mpr hprop
          exact List.mem_append.mpr (Or.inl (List.mem_append.mpr
            (Or.inr ((hmemcm nm).mpr this))))
      · intro _
        rw [← hevs]
        refine List.mem_append.mpr (Or.inl (List.mem_append.mpr (Or.inr ?_)))
        rw [create_master_events]
        exact List.mem_append.mpr (Or.inr (List.mem_singleton.mpr rfl))
    | some m =>
      rw [hcm] at hmain
      dsimp only at hmain
      injection hmain with hfs hrest
      injection hrest with hevs hout
      have hmemcm : ∀ nm, Ev.readDaily nm ∈ (create_master_summary envR.oai envR.P
          ((dailyGlobNames fs1).map (fun nm => (nm, (fsLookup fs1.daily nm).getD [])))).2 ↔
          nm ∈ dailyGlobNames fs1 := by
        intro nm
        rw [readDaily_mem_create_master, map_fst_name_pairs]
      refine ⟨?_, hwr, ?_, ?_⟩
      · intro nm hnm
        rw [← hfs]
        rw [finishReport_daily]
        exact hframe nm hnm
      · intro _ nm
        rw [← hevs]
        constructor
        · intro hmem
          rcases List.mem_append.mp hmem with h | h
          · rcases List.mem_append.mp h with h2 | h2
            · rcases List.mem_append.mp h2 with h3 | h3
              · exact absurd h3 (hnord nm)
              · exact (mem_dailyGlobNames fs1 nm).mp ((hmemcm nm).mp h3)
            · exact absurd (List.mem_singleton.mp h2) (by intro h0; exact Ev.noConfusion h0)
          · exact absurd h (finishReport_no_readDaily _ _ _ _ nm)
        · intro hprop
          have : nm ∈ dailyGlobNames fs1 := (mem_dailyGlobNames fs1 nm).mpr hprop
          exact List.mem_append.mpr (Or.inl (List.mem_append.mpr (Or.inl
            (List.mem_append.mpr (Or.inr ((hmemcm nm).mpr this))))))
      · intro _
        rw [← hevs]
        refine List.mem_append.mpr (Or.inl (List.mem_append.mpr (Or.inl
          (List.mem_append.mpr (Or.inr ?_)))))
        rw [create_master_events]
        exact List.mem_append.mpr (Or.inr (List.mem_singleton.mpr rfl))

/-- The resume environment of the C7 witness: Monday and Wednesday
summaries already persisted, Tuesday selected for reprocessing. -/
def c7Env : ResEnv :=
  ⟨⟨true, [], [("Tuesday.txt".toList, "tue raw".toList)],
    [("Monday_summary.txt".toList, "mon".toList),
     ("Wednesday_summary.txt".toList, "wed".toList)], none, []⟩,
   true, true, cxLLM, cxLLM, cxPrompts, ["Tuesday".toList], false⟩

/-- Witness for C7 at the concrete resume environment. -/
theorem C7_resume_frame_witness :
    (c7Env.hasCereKey = true ∧ c7Env.hasOaiKey = true ∧ c7Env.skipDaily = false ∧
      c7Env.days ≠ []) ∧
    ((∀ nm, nm ∉ (resumeStep1 c7Env.cere c7Env.oai c7Env.P c7Env.fs c7Env.days).2.1 →
        fsLookup (resume_main c7Env).1.daily nm = fsLookup c7Env.fs.daily nm) ∧
     (∀ nm ∈ (resumeStep1 c7Env.cere c7Env.oai c7Env.P c7Env.fs c7Env.days).2.1,
        ∃ d ∈ c7Env.days, ∃ pr, find_transcript_for_day c7Env.fs d = some pr ∧
          nm = pyStem pr.1 ++ summarySfx) ∧
     (dailyGlobNames (resumeStep1 c7Env.cere c7Env.oai c7Env.P c7Env.fs c7Env.days).1 ≠ [] →
       ∀ nm, (Ev.readDaily nm ∈ (resume_main c7Env).2.1 ↔
         (endsWithStr summarySfx nm = true ∧
           ∃ e ∈ (resumeStep1 c7Env.cere c7Env.oai c7Env.P c7Env.fs c7Env.days).1.daily,
             e.1 = nm))) ∧
     (dailyGlobNames (resumeStep1 c7Env.cere c7Env.oai c7Env.P c7Env.fs c7Env.days).1 ≠ [] →
       Ev.llm c7Env.P.masterSystem (c7Env.P.masterUser (masterCombined
         ((dailyGlobNames (resumeStep1 c7Env.cere c7Env.oai c7Env.P c7Env.fs c7Env.days).1).map
           (fun nm => (nm, (fsLookup
             (resumeStep1 c7Env.cere c7Env.oai c7Env.P c7Env.fs c7Env.days).1.daily nm).getD
             []))))) ∈ (resume_main c7Env).2.1)) :=
  ⟨⟨rfl, rfl, rfl, by decide⟩,
    C7_resume_frame c7Env _ _ _ _ _ _ rfl rfl rfl (by decide) rfl rfl⟩

-- ---------------------------------------------------------------------
-- C8: master synthesis failure is terminal but non-destructive
-- ---------------------------------------------------------------------

theorem enhStep1_preserves (llm : LLM) (P : Prompts) :
    ∀ (paths : List Str) (fs : FS),
      (enhStep1 llm P fs paths).1.processed = fs.processed ∧
      (enhStep1 llm P fs paths).1.transcripts = fs.transcripts ∧
      (enhStep1 llm P fs paths).1.master = fs.master ∧
      (enhStep1 llm P fs paths).1.reports = fs.reports := by
  intro paths
  induction paths with
  | nil => intro fs; exact ⟨rfl, rfl, rfl, rfl⟩
  | cons nm rest ih =>
    intro fs
    simp only [enhStep1]
    cases hs : (summarize_transcript_file llm llm P nm
        ((fsLookup fs.processed nm).getD [])).1 with
    | none =>
      dsimp only
      exact ih fs
    | some s =>
      dsimp only
      by_cases hse : s = []
      · rw [if_pos hse]
        exact ih fs
      · rw [if_neg hse]
        exact ih _

theorem enhStep1_no_write_mr (llm : LLM) (P : Prompts) :
    ∀ (paths : List Str) (fs : FS), ∀ e ∈ (enhStep1 llm P fs paths).2.2,
      e ≠ Ev.writeMaster ∧ e ≠ Ev.writeReport := by
  intro paths
  induction paths with
  | nil => intro fs e he; simp [enhStep1] at he
  | cons nm rest ih =>
    intro fs e he
    simp only [enhStep1] at he
    cases hs : (summarize_transcript_file llm llm P nm
        ((fsLookup fs.processed nm).getD [])).1 with
    | none =>
      rw [hs] at he
      dsimp only at he
      rcases List.mem_cons.mp he with h | h
      · rw [h]; exact ⟨by intro h0; exact Ev.noConfusion h0,
          by intro h0; exact Ev.noConfusion h0⟩
      · rcases List.mem_append.mp h with h2 | h2
        · rcases List.mem_append.mp h2 with h3 | h3
          · obtain ⟨cc, _, hcc⟩ := List.mem_map.mp h3
            rw [← hcc]; exact ⟨by intro h0; exact Ev.noConfusion h0,
              by intro h0; exact Ev.noConfusion h0⟩
          · rw [List.mem_singleton.mp h3]
            exact ⟨by intro h0; exact Ev.noConfusion h0,
              by intro h0; exact Ev.noConfusion h0⟩
        · exact ih fs e h2
    | some s =>
      rw [hs] at he
      dsimp only at he
      by_cases hse : s = []
      · rw [if_pos hse] at he
        rcases List.mem_cons.mp he with h | h
        · rw [h]; exact ⟨by intro h0; exact Ev.noConfusion h0,
            by intro h0; exact Ev.noConfusion h0⟩
        · rcases List.mem_append.mp h with h2 | h2
          · obtain ⟨cc, _, hcc⟩ := List.mem_map.mp h2
            rw [← hcc]; exact ⟨by intro h0; exact Ev.noConfusion h0,
              by intro h0; exact Ev.noConfusion h0⟩
          · exact ih fs e h2
      · rw [if_neg hse] at he
        rcases List.mem_cons.mp he with h | h
        · rw [h]; exact ⟨by intro h0; exact Ev.noConfusion h0,
            by intro h0; exact Ev.noConfusion h0⟩
        · rcases List.mem_append.mp h with h2 | h2
          · rcases List.mem_append.mp h2 with h3 | h3
            · obtain ⟨cc, _, hcc⟩ := List.mem_map.mp h3
              rw [← hcc]; exact ⟨by intro h0; exact Ev.noConfusion h0,
                by intro h0; exact Ev.noConfusion h0⟩
            · rw [List.mem_singleton.mp h3]
              exact ⟨by intro h0; exact Ev.noConfusion h0,
                by intro h0; exact Ev.noConfusion h0⟩
          · exact ih _ e h2

theorem resumeStep1_no_write_mr (cl ol : LLM) (P : Prompts) :
    ∀ (days : List Str) (fs : FS), ∀ e ∈ (resumeStep1 cl ol P fs days).2.2,
      e ≠ Ev.writeMaster ∧ e ≠ Ev.writeReport := by
  intro days
  induction days with
  | nil => intro fs e he; simp [resumeStep1] at he
  | cons d ds ih =>
    intro fs e he
    simp only [resumeStep1] at he
    cases hf : find_transcript_for_day fs d with
    | none =>
      rw [hf] at he
      dsimp only at he
      exact ih fs e he
    | some f =>
      rw [hf] at he
      dsimp only at he
      cases hs : (summarize_transcript_file cl ol P f.1 f.2).1 with
      | none =>
        rw [hs] at he
        dsimp only at he
        rcases List.mem_append.mp he with h | h
        · rcases List.mem_append.mp h with h2 | h2
          · obtain ⟨cc, _, hcc⟩ := List.mem_map.mp h2
            rw [← hcc]; exact ⟨by intro h0; exact Ev.noConfusion h0,
              by intro h0; exact Ev.noConfusion h0⟩
          · rw [List.mem_singleton.mp h2]
            exact ⟨by intro h0; exact Ev.noConfusion h0,
              by intro h0; exact Ev.noConfusion h0⟩
        · exact ih fs e h
      | some s =>
        rw [hs] at he
        dsimp only at he
        by_cases hse : s = []
        · rw [if_pos hse] at he
          rcases List.mem_append.mp he with h | h
          · obtain ⟨cc, _, hcc⟩ := List.mem_map.mp h
            rw [← hcc]; exact ⟨by intro h0; exact Ev.noConfusion h0,
              by intro h0; exact Ev.noConfusion h0⟩
          · exact ih fs e h
        · rw [if_neg hse] at he
          rcases List.mem_append.mp he with h | h
          · rcases List.mem_append.mp h with h2 | h2
            · obtain ⟨cc, _, hcc⟩ := List.mem_map.mp h2
              rw [← hcc]; exact ⟨by intro h0; exact Ev.noConfusion h0,
                by intro h0; exact Ev.noConfusion h0⟩
            · rw [List.mem_singleton.mp h2]
              exact ⟨by intro h0; exact Ev.noConfusion h0,
                by intro h0; exact Ev.noConfusion h0⟩
          · exact ih _ e h

theorem normEv_no_write_mr (e : Ev) (h : normEv e) :
    e ≠ Ev.writeMaster ∧ e ≠ Ev.writeReport := by
  cases e <;> simp [normEv] at h ⊢

theorem create_master_no_write_mr (llm : LLM) (P : Prompts) (files : List (Str × Str)) :
    ∀ e ∈ (create_master_summary llm P files).2,
      e ≠ Ev.writeMaster ∧ e ≠ Ev.writeReport := by
  intro e he
  rw [create_master_events] at he
  rcases List.mem_append.mp he with h | h
  · obtain ⟨f, _, hf⟩ := List.mem_map.mp h
    rw [← hf]
    exact ⟨by intro h0; exact Ev.noConfusion h0, by intro h0; exact Ev.noConfusion h0⟩
  · rw [List.mem_singleton.mp h]
    exact ⟨by intro h0; exact Ev.noConfusion h0, by intro h0; exact Ev.noConfusion h0⟩

/-- C8: if the master synthesis model call fails, the run ends with no
report: no master or report write happens, the run's final store is
exactly the post-map-step store (every already-persisted daily summary
untouched), and the master and report partitions still hold their
pre-run contents, so a retry can redo only the master stage. -/
theorem C8_master_failure
    (envE : EnhEnv) (fsP : FS) (paths : List Str) (e0 : List Ev)
    (fs2 : FS) (dpaths : List Str) (e1 : List Ev)
    (envR : ResEnv) (fs1 : FS) (w1 : List Str) (e1R : List Ev) :
    (process_transcripts envE.fs = (fsP, paths, e0) →
     paths ≠ [] → envE.hasKey = true →
     enhStep1 envE.llm envE.P fsP paths = (fs2, dpaths, e1) →
     dpaths ≠ [] →
     (create_master_summary envE.llm envE.P
        (dpaths.map (fun nm => (nm, (fsLookup fs2.daily nm).getD [])))).1 = none →
     (enhanced_main envE).2.2 = Outcome.abortedMaster ∧
     (enhanced_main envE).1 = fs2 ∧
     fs2.master = envE.fs.master ∧ fs2.reports = envE.fs.reports ∧
     Ev.writeMaster ∉ (enhanced_main envE).2.1 ∧
     Ev.writeReport ∉ (enhanced_main envE).2.1) ∧
    (envR.hasCereKey = true → envR.hasOaiKey = true →
     (if !envR.skipDaily && !envR.days.isEmpty then
        resumeStep1 envR.cere envR.oai envR.P envR.fs envR.days
      else (envR.fs, [], [])) = (fs1, w1, e1R) →
     dailyGlobNames fs1 ≠ [] →
     (create_master_summary envR.oai envR.P
        ((dailyGlobNames fs1).map
          (fun nm => (nm, (fsLookup fs1.daily nm).getD [])))).1 = none →
     (resume_main envR).2.2 = Outcome.abortedMaster ∧
     (resume_main envR).1 = fs1 ∧
     fs1.master = envR.fs.master ∧ fs1.reports = envR.fs.reports ∧
     Ev.writeMaster ∉ (resume_main envR).2.1 ∧
     Ev.writeReport ∉ (resume_main envR).2.1) := by
  constructor
  · intro hpr hpne hkey hstep hdne hfail
    have heq : enhanced_main envE =
        (fs2, e0 ++ e1 ++ (create_master_summary envE.llm envE.P
            (dpaths.map (fun nm => (nm, (fsLookup fs2.daily nm).getD [])))).2 ++
          [Ev.opFail masterStage], Outcome.abortedMaster) := by
      simp only [enhanced_main]
      rw [hpr]
      dsimp only
      rw [if_neg hpne, if_neg (by simp [hkey]), hstep]
      dsimp only
      rw [if_neg hdne, hfail]
    have hmast : fs2.master = envE.fs.master ∧ fs2.reports = envE.fs.reports := by
      have hp1 := (process_transcripts_norm envE.fs).2.2.1
      have hp2 := (process_transcripts_norm envE.fs).2.2.2
      rw [hpr] at hp1 hp2
      have he1 := (enhStep1_preserves envE.llm envE.P paths fsP).2.2.1
      have he2 := (enhStep1_preserves envE.llm envE.P paths fsP).2.2.2
      rw [hstep] at he1 he2
      exact ⟨he1.trans hp1, he2.trans hp2⟩
    have hnw : ∀ e ∈ (enhanced_main envE).2.1,
        e ≠ Ev.writeMaster ∧ e ≠ Ev.writeReport := by
      rw [heq]
      intro e he
      rcases List.mem_append.mp he with h | h
      · rcases List.mem_append.mp h with h2 | h2
        · rcases List.mem_append.mp h2 with h3 | h3
          · have hn := (process_transcripts_norm envE.fs).1 e
            rw [hpr] at hn
            exact normEv_no_write_mr e (hn h3)
          · have hn := enhStep1_no_write_mr envE.llm envE.P paths fsP e
            rw [hstep] at hn
            exact hn h3
        · exact create_master_no_write_mr _ _ _ e h2
      · rw [List.mem_singleton.mp h]
        exact ⟨by intro h0; exact Ev.noConfusion h0, by intro h0; exact Ev.noConfusion h0⟩
    refine ⟨by rw [heq], by rw [heq], hmast.1, hmast.2, ?_, ?_⟩
    · intro hmem
      exact (hnw _ hmem).1 rfl
    · intro hmem
      exact (hnw _ hmem).2 rfl
  · intro hck hok hs1 hng hfail
    have heq : resume_main envR =
        (fs1, e1R ++ (create_master_summary envR.oai envR.P
            ((dailyGlobNames fs1).map
              (fun nm => (nm, (fsLookup fs1.daily nm).getD [])))).2 ++
          [Ev.opFail masterStage], Outcome.abortedMaster) := by
      simp only [resume_main]
      rw [if_neg (by simp [hck]), if_neg (by simp [hok]), hs1]
      dsimp only
      rw [if_neg hng, hfail]
    have hside : fs1.master = envR.fs.master ∧ fs1.reports = envR.fs.reports ∧
        (∀ e ∈ e1R, e ≠ Ev.writeMaster ∧ e ≠ Ev.writeReport) := by
      by_cases hcnd : (!envR.skipDaily && !envR.days.isEmpty) = true
      · rw [if_pos hcnd] at hs1
        have hp := resumeStep1_preserves envR.cere envR.oai envR.P envR.days envR.fs
        rw [hs1] at hp
        refine ⟨hp.2.2.1, hp.2.2.2.1, ?_⟩
        intro e he
        have hn := resumeStep1_no_write_mr envR.cere envR.oai envR.P envR.days envR.fs e
        rw [hs1] at hn
        exact hn he
      · rw [if_neg hcnd] at hs1
        injection hs1 with h1 h2
        injection h2 with h2 h3
        rw [← h1]
        refine ⟨rfl, rfl, ?_⟩
        rw [← h3]
        intro e he
        simp at he
    have hnw : ∀ e ∈ (resume_main envR).2.1,
        e ≠ Ev.writeMaster ∧ e ≠ Ev.writeReport := by
      rw [heq]
      intro e he
      rcases List.mem_append.mp he with h | h
      · rcases List.mem_append.mp h with h2 | h2
        · exact hside.2.2 e h2
        · exact create_master_no_write_mr _ _ _ e h2
      · rw [List.mem_singleton.mp h]
        exact ⟨by intro h0; exact Ev.noConfusion h0, by intro h0; exact Ev.noConfusion h0⟩
    refine ⟨by rw [heq], by rw [heq], hside.1, hside.2.1, ?_, ?_⟩
    · intro hmem
      exact (hnw _ hmem).1 rfl
    · intro hmem
      exact (hnw _ hmem).2 rfl

/-- A backend failing exactly the master-synthesis calls. -/
def cxFailMaster : LLM := fun s _ =>
  if s = cxPrompts.masterSystem then none else some " x\n".toList

/-- The enhanced environment of the C8 witness. -/
def c8EnvE : EnhEnv := ⟨c10FS, true, cxFailMaster, cxPrompts⟩

/-- The resume environment of the C8 witness: one persisted daily
summary, map step skipped, master call failing. -/
def c8EnvR : ResEnv :=
  ⟨⟨true, [], [], [("Monday_summary.txt".toList, "mon".toList)], none, []⟩,
   true, true, cxFailMaster, cxFailMaster, cxPrompts, [], true⟩

/-- Witness for C8 at the two concrete environments. -/
theorem C8_master_failure_witness :
    ((enhanced_main c8EnvE).2.2 = Outcome.abortedMaster ∧
     (enhanced_main c8EnvE).1 = (enhStep1 c8EnvE.llm c8EnvE.P
        (process_transcripts c8EnvE.fs).1 (process_transcripts c8EnvE.fs).2.1).1 ∧
     (enhStep1 c8EnvE.llm c8EnvE.P (process_transcripts c8EnvE.fs).1
        (process_transcripts c8EnvE.fs).2.1).1.master = c8EnvE.fs.master ∧
     (enhStep1 c8EnvE.llm c8EnvE.P (process_transcripts c8EnvE.fs).1
        (process_transcripts c8EnvE.fs).2.1).1.reports = c8EnvE.fs.reports ∧
     Ev.writeMaster ∉ (enhanced_main c8EnvE).2.1 ∧
     Ev.writeReport ∉ (enhanced_main c8EnvE).2.1) ∧
    ((resume_main c8EnvR).2.2 = Outcome.abortedMaster ∧
     (resume_main c8EnvR).1 =
       (if !c8EnvR.skipDaily && !c8EnvR.days.isEmpty then
          resumeStep1 c8EnvR.cere c8EnvR.oai c8EnvR.P c8EnvR.fs c8EnvR.days
        else (c8EnvR.fs, [], [])).1 ∧
     (if !c8EnvR.skipDaily && !c8EnvR.days.isEmpty then
        resumeStep1 c8EnvR.cere c8EnvR.oai c8EnvR.P c8EnvR.fs c8EnvR.days
      else (c8EnvR.fs, [], [])).1.master = c8EnvR.fs.master ∧
     (if !c8EnvR.skipDaily && !c8EnvR.days.isEmpty then
        resumeStep1 c8EnvR.cere c8EnvR.oai c8EnvR.P c8EnvR.fs c8EnvR.days
      else (c8EnvR.fs, [], [])).1.reports = c8EnvR.fs.reports ∧
     Ev.writeMaster ∉ (resume_main c8EnvR).2.1 ∧
     Ev.writeReport ∉ (resume_main c8EnvR).2.1) :=
  ⟨(C8_master_failure c8EnvE
      (process_transcripts c8EnvE.fs).1 (process_transcripts c8EnvE.fs).2.1
      (process_transcripts c8EnvE.fs).2.2
      (enhStep1 c8EnvE.llm c8EnvE.P (process_transcripts c8EnvE.fs).1
        (process_transcripts c8EnvE.fs).2.1).1
      (enhStep1 c8EnvE.llm c8EnvE.P (process_transcripts c8EnvE.fs).1
        (process_transcripts c8EnvE.fs).2.1).2.1
      (enhStep1 c8EnvE.llm c8EnvE.P (process_transcripts c8EnvE.fs).1
        (process_transcripts c8EnvE.fs).2.1).2.2
      c8EnvR
      (if !c8EnvR.skipDaily && !c8EnvR.days.isEmpty then
          resumeStep1 c8EnvR.cere c8EnvR.oai c8EnvR.P c8EnvR.fs c8EnvR.days
        else (c8EnvR.fs, [], [])).1
      (if !c8EnvR.skipDaily && !c8EnvR.days.isEmpty then
          resumeStep1 c8EnvR.cere c8EnvR.oai c8EnvR.P c8EnvR.fs c8EnvR.days
        else (c8EnvR.fs, [], [])).2.1
      (if !c8EnvR.skipDaily && !c8EnvR.days.isEmpty then
          resumeStep1 c8EnvR.cere c8EnvR.oai c8EnvR.P c8EnvR.fs c8EnvR.days
        else (c8EnvR.fs, [], [])).2.2).1
      rfl (by decide) rfl rfl (by decide) (by decide),
   (C8_master_failure c8EnvE
      (process_transcripts c8EnvE.fs).1 (process_transcripts c8EnvE.fs).2.1
      (process_transcripts c8EnvE.fs).2.2
      (enhStep1 c8EnvE.llm c8EnvE.P (process_transcripts c8EnvE.fs).1
        (process_transcripts c8EnvE.fs).2.1).1
      (enhStep1 c8EnvE.llm c8EnvE.P (process_transcripts c8EnvE.fs).1
        (process_transcripts c8EnvE.fs).2.1).2.1
      (enhStep1 c8EnvE.llm c8EnvE.P (process_transcripts c8EnvE.fs).1
        (process_transcripts c8EnvE.fs).2.1).2.2
      c8EnvR
      (if !c8EnvR.skipDaily && !c8EnvR.days.isEmpty then
          resumeStep1 c8EnvR.cere c8EnvR.oai c8EnvR.P c8EnvR.fs c8EnvR.days
        else (c8EnvR.fs, [], [])).1
      (if !c8EnvR.skipDaily && !c8EnvR.days.isEmpty then
          resumeStep1 c8EnvR.cere c8EnvR.oai c8EnvR.P c8EnvR.fs c8EnvR.days
        else (c8EnvR.fs, [], [])).2.1
      (if !c8EnvR.skipDaily && !c8EnvR.days.isEmpty then
          resumeStep1 c8EnvR.cere c8EnvR.oai c8EnvR.P c8EnvR.fs c8EnvR.days
        else (c8EnvR.fs, [], [])).2.2).2
      rfl rfl rfl (by decide) (by decide)⟩
